import Mathlib

/-!
# VisSend: chunked Base64 converter (`public/js/main.js`)

A shallow embedding of the class `Base64Converter`.

* A JavaScript string is modelled as a `List Char`, one `Char` per code unit.
* A byte buffer (`Uint8Array`) is modelled as a `List Nat`, each entry below 256.
* The asynchronous loops of `encodeFile` and `decodeFile` are run sequentially;
  the calls to `updateProgress` are recorded, oldest first, in a trace.
* The DOM is reduced to the trace of `showStatus` calls.
-/

namespace VisSend

/-! ## Strings -/

/-- The method `String.prototype.split` with a one-character separator: the fields between
the occurrences of `sep`, in order (the empty string gives one empty field). -/
def split (s : List Char) (sep : Char) : List (List Char) :=
  match s with
  | [] => [[]]
  | c :: cs =>
    if c = sep then [] :: split cs sep
    else
      match split cs sep with
      | [] => [[c]]
      | f :: fs => (c :: f) :: fs

/-- The expression `a || b` on a possibly `undefined` string: `b` when `a` is
`undefined` or empty. -/
def orElse (a : Option (List Char)) (b : List Char) : List Char :=
  match a with
  | none => b
  | some [] => b
  | some (c :: cs) => c :: cs

/-- The method `String.prototype.substr(start, length)`. -/
def substr (s : List Char) (start length : Nat) : List Char :=
  (s.drop start).take length

/-- The method `Blob.prototype.slice(start, end)` on the bytes of a blob. -/
def slice (bytes : List Nat) (start stop : Nat) : List Nat :=
  (bytes.drop start).take (stop - start)

/-! ## The `base64js` library -/

/-- The 64 symbols of the standard Base64 alphabet, in value order. -/
def code : List Char :=
  "ABCDEFGHIJKLMNOPQRSTUVWXYZabcdefghijklmnopqrstuvwxyz0123456789+/".toList

/-- Modelled from the spec: the symbol table of `base64js`, which is loaded by the
page and absent from the sources. The index is always masked to six bits. -/
def lookup (i : Nat) : Char :=
  code.getD (i % 64) 'A'

/-- Modelled from the spec: the reverse table of `base64js`. A character outside
the table reads as `undefined`, which the bitwise operators treat as 0; the
URL-safe symbols `-` and `_` are accepted as 62 and 63. -/
def revLookup (c : Char) : Nat :=
  if c = '-' then 62
  else if c = '_' then 63
  else if c ∈ code then code.indexOf c
  else 0

/-- Modelled from the spec: `base64js.fromByteArray`, absent from the sources:
standard Base64 with `=` padding, three bytes to four symbols. -/
def fromByteArray : List Nat → List Char
  | [] => []
  | [a] =>
    [lookup (a >>> 2), lookup ((a <<< 4) &&& 0x3F), '=', '=']
  | [a, b] =>
    let tmp := (a <<< 8) + b
    [lookup (tmp >>> 10), lookup ((tmp >>> 4) &&& 0x3F), lookup ((tmp <<< 2) &&& 0x3F), '=']
  | a :: b :: c :: rest =>
    let tmp := ((a <<< 16) &&& 0xFF0000) + ((b <<< 8) &&& 0xFF00) + (c &&& 0xFF)
    lookup ((tmp >>> 18) &&& 0x3F) :: lookup ((tmp >>> 12) &&& 0x3F) ::
      lookup ((tmp >>> 6) &&& 0x3F) :: lookup (tmp &&& 0x3F) :: fromByteArray rest

/-- The three bytes that four symbols decode to. -/
def decodeQuad (a b c d : Char) : List Nat :=
  let tmp := (revLookup a <<< 18) ||| (revLookup b <<< 12) ||| (revLookup c <<< 6) ||| revLookup d
  [(tmp >>> 16) &&& 0xFF, (tmp >>> 8) &&& 0xFF, tmp &&& 0xFF]

/-- The main loop of `toByteArray`: every complete group of four symbols among the
first `n` groups of the input. -/
def decodeQuads : Nat → List Char → List Nat
  | n + 1, a :: b :: c :: d :: rest => decodeQuad a b c d ++ decodeQuads n rest
  | _, _ => []

/-- The bytes that `toByteArray` reads from an incomplete last group: one byte from
two symbols, two bytes from three symbols. -/
def decodeTail (s : List Char) : List Nat :=
  match s with
  | [a, b] =>
    let tmp := (revLookup a <<< 2) ||| (revLookup b >>> 4)
    [tmp &&& 0xFF]
  | [a, b, c] =>
    let tmp := (revLookup a <<< 10) ||| (revLookup b <<< 4) ||| (revLookup c >>> 2)
    [(tmp >>> 8) &&& 0xFF, tmp &&& 0xFF]
  | _ => []

/-- Modelled from the spec: `base64js.toByteArray`, absent from the sources:
standard padded Base64 that stops at the first `=`. It throws when the length
is not a multiple of 4; the symbols before the first `=` are decoded group by
group, and an incomplete last group of two or three symbols gives one or two
bytes. When the first `=` stands at a group boundary the library counts four
placeholders: the last complete group is skipped and two zero bytes take its
place, and it throws if there is no group at all. -/
def toByteArray (b64 : List Char) : Except String (List Nat) :=
  if b64.length % 4 > 0 then
    .error "Invalid string. Length must be a multiple of 4"
  else
    let valid := b64.takeWhile (fun c => c != '=')
    let validLen := valid.length
    if validLen = b64.length then
      .ok (decodeQuads (validLen / 4) valid)
    else if validLen % 4 = 0 then
      if validLen = 0 then .error "Invalid typed array length: -1"
      else .ok (decodeQuads (validLen / 4 - 1) valid ++ [0, 0])
    else
      .ok (decodeQuads (validLen / 4) valid ++ decodeTail (valid.drop (validLen / 4 * 4)))

/-! ## The converter -/

/-- The field `CHUNK_SIZE`, set by the constructor: 2 MiB. -/
def CHUNK_SIZE : Nat := 1024 * 1024 * 2

/-- A `File`: its name, its mime type (empty when unknown), its bytes, and the
string that `file.text()` resolves to. -/
structure File where
  name : List Char
  type : List Char
  bytes : List Nat
  text : List Char
deriving DecidableEq, Repr

/-- The property `file.size`. -/
def File.size (file : File) : Nat := file.bytes.length

/-- The loop variables of `encodeFile`, with the values passed to `updateProgress`. -/
structure EncodeState where
  offset : Nat
  base64 : List Char
  progress : List ℚ

/-- One pass through the body of the `while` loop of `encodeFile`. -/
def encodeStep (file : File) (st : EncodeState) : EncodeState :=
  let chunk := slice file.bytes st.offset (st.offset + CHUNK_SIZE)
  let offset := st.offset + CHUNK_SIZE
  { offset := offset
    base64 := st.base64 ++ fromByteArray chunk
    progress := st.progress ++ [(offset : ℚ) / (file.size : ℚ)] }

/-- The `while (offset < file.size)` loop of `encodeFile`, at most `fuel` passes. -/
def encodeLoop (file : File) : Nat → EncodeState → EncodeState
  | 0, st => st
  | fuel + 1, st =>
    if st.offset < file.size then encodeLoop file fuel (encodeStep file st) else st

/-- The header that `encodeFile` starts from. -/
def header (type : List Char) : List Char :=
  "data:".toList ++ orElse (some type) "application/octet-stream".toList ++ ";base64,".toList

/-- The run of `encodeFile`: the final loop variables. The loop adds `CHUNK_SIZE`
to `offset` on every pass, so `file.size` passes are always enough. -/
def encodeRun (file : File) : EncodeState :=
  encodeLoop file file.size { offset := 0, base64 := header file.type, progress := [] }

/-- The string returned by `encodeFile`. -/
def encodeFile (file : File) : List Char := (encodeRun file).base64

/-- The loop variables of `decodeFile`, with the values passed to `updateProgress`
and the error thrown by `toByteArray`, if any. -/
structure DecodeState where
  offset : Nat
  byteArrays : List (List Nat)
  progress : List ℚ
  error : Option String

/-- The payload `text.split(',')[1] || text` of `decodeFile` and `isValidBase64`. -/
def payload (text : List Char) : List Char :=
  orElse ((split text ',').get? 1) text

/-- The `while (offset < base64Data.length)` loop of `decodeFile`, at most `fuel`
passes; it stops at the first chunk on which `toByteArray` throws. -/
def decodeLoop (base64Data : List Char) : Nat → DecodeState → DecodeState
  | 0, st => st
  | fuel + 1, st =>
    if st.offset < base64Data.length then
      let chunk := substr base64Data st.offset CHUNK_SIZE
      match toByteArray chunk with
      | .error e => { st with error := some e }
      | .ok bytes =>
        let offset := st.offset + CHUNK_SIZE
        decodeLoop base64Data fuel
          { offset := offset
            byteArrays := st.byteArrays ++ [bytes]
            progress := st.progress ++ [(offset : ℚ) / (base64Data.length : ℚ)]
            error := none }
    else st

/-- The run of `decodeFile`: the final loop variables. The loop adds `CHUNK_SIZE`
to `offset` on every pass, so as many passes as the payload has characters are
always enough. -/
def decodeRun (file : File) : DecodeState :=
  let base64Data := payload file.text
  decodeLoop base64Data base64Data.length
    { offset := 0, byteArrays := [], progress := [], error := none }

/-- The outcome of `decodeFile`: the parts of the returned `Blob`, or the error
thrown by `toByteArray`. -/
def decodeFile (file : File) : Except String (List (List Nat)) :=
  match (decodeRun file).error with
  | some e => .error e
  | none => .ok (decodeRun file).byteArrays

/-- The bytes of `new Blob(byteArrays)`: the parts, concatenated. -/
def blobBytes (parts : List (List Nat)) : List Nat := parts.flatten

/-- The character class `[A-Za-z0-9+/]` of `base64Regex`. -/
def isBase64Char (c : Char) : Bool :=
  (65 ≤ c.toNat && c.toNat ≤ 90) || (97 ≤ c.toNat && c.toNat ≤ 122) ||
    (48 ≤ c.toNat && c.toNat ≤ 57) || c == '+' || c == '/'

/-- The test `base64Regex.test(s)` for
`/^([A-Za-z0-9+/]{4})*([A-Za-z0-9+/]{3}=|[A-Za-z0-9+/]{2}==)?$/`. -/
def base64Regex : List Char → Bool
  | [] => true
  | a :: b :: c :: d :: rest =>
    (isBase64Char a && isBase64Char b && isBase64Char c && isBase64Char d && base64Regex rest) ||
    (rest.isEmpty && isBase64Char a && isBase64Char b &&
      ((isBase64Char c && d == '=') || (c == '=' && d == '=')))
  | _ => false

/-- The method `isValidBase64`. -/
def isValidBase64 (str : List Char) : Bool :=
  base64Regex (payload str)

/-- The method `getFileExtension`: the last field of `filename.split('.')`, in lower
case. Only the letters A-Z are lowered here, where `toLowerCase` lowers every cased
letter: the two differ on a name such as `a.É`, and agree on whether the result is
one of the extensions that `isBinaryFile` looks for, which are made of the
letters a-z alone. -/
def getFileExtension (filename : List Char) : List Char :=
  ((split filename '.').getLast?.getD []).map Char.toLower

/-- The list `binaryExtensions` of `isBinaryFile`. -/
def binaryExtensions : List (List Char) :=
  ["bin".toList, "exe".toList, "dll".toList, "so".toList, "dmg".toList, "img".toList]

/-- The method `isBinaryFile`. -/
def isBinaryFile (filename : List Char) : Bool :=
  binaryExtensions.contains (getFileExtension filename)

/-- The messages passed to `showStatus`, each with its type. -/
inductive StatusMsg where
  /-- The text `No file selected`, type `error`. -/
  | noFileSelected
  /-- The text `File too large (max 100MB)`, type `error`. -/
  | fileTooLarge
  /-- The text `Warning: Binary file detected. Encoding may produce large output.`,
  type `warning`. -/
  | binaryWarning
  /-- The text `File selected:` with the name and the size of the file, type `success`. -/
  | fileSelected (name : List Char) (size : Nat)
  /-- The text `Please select a file first`, type `error`. -/
  | selectFileFirst
  /-- The text `Invalid Base64 format`, type `error`. -/
  | invalidBase64
  /-- The text `Operation completed in` with the elapsed time, type `success`. -/
  | completed
  /-- The text `Error:` with the message of the caught error, type `error`. -/
  | failed (message : String)
deriving DecidableEq, Repr

/-- The argument `operation` of `processFile`: `'encode'`, or anything else. -/
inductive Operation where
  | encode
  | decode
deriving DecidableEq, Repr

/-- The argument `data` of `downloadResult`: the string of `encodeFile` or the
parts of the blob of `decodeFile`. -/
inductive Data where
  | text (base64 : List Char)
  | blob (parts : List (List Nat))
deriving DecidableEq, Repr

/-- A download started by `downloadResult`: the attribute `a.download` and the data. -/
structure Download where
  name : List Char
  data : Data
deriving DecidableEq, Repr

/-- The converter: the field `file`, the calls to `showStatus` so far and the
downloads so far, oldest first. -/
structure State where
  file : Option File
  shown : List StatusMsg
  downloads : List Download
deriving DecidableEq, Repr

/-- The method `showStatus`. -/
def showStatus (s : State) (msg : StatusMsg) : State :=
  { s with shown := s.shown ++ [msg] }

/-- The method `setFile`; `none` is a missing file. -/
def setFile (s : State) (file : Option File) : State :=
  match file with
  | none => showStatus s .noFileSelected
  | some file =>
    if file.size > 100 * 1024 * 1024 then showStatus s .fileTooLarge
    else
      let s := if isBinaryFile file.name then showStatus s .binaryWarning else s
      showStatus { s with file := some file } (.fileSelected file.name file.size)

/-- The characters that `.` of a regular expression does not match. -/
def isLineTerminator (c : Char) : Bool :=
  c == '\n' || c == '\r' || c.toNat == 0x2028 || c.toNat == 0x2029

/-- The group `(.*?)` followed by the literal `pat`: the shortest run of characters
matched by `.` after which `pat` follows. -/
def lazyUntil (pat : List Char) : List Char → Option (List Char)
  | [] => if pat.isPrefixOf [] then some [] else none
  | c :: cs =>
    if pat.isPrefixOf (c :: cs) then some []
    else if isLineTerminator c then none
    else (lazyUntil pat cs).map (fun m => c :: m)

/-- The first group of `originalName.match(/^data:(.*?);base64/)`, `none` when
there is no match. -/
def headerMatch (originalName : List Char) : Option (List Char) :=
  if "data:".toList.isPrefixOf originalName then
    lazyUntil ";base64".toList (originalName.drop 5)
  else none

/-- The variable `extension` of `downloadResult`. -/
def extension (operation : Operation) (originalName : List Char) : List Char :=
  match operation with
  | .encode => "b64".toList
  | .decode =>
    match originalName with
    | [] => "bin".toList
    | _ :: _ =>
      match headerMatch originalName with
      | none => "bin".toList
      | some [] => "bin".toList
      | some (m :: ms) => orElse ((split (m :: ms) '/').get? 1) "bin".toList

/-- The attribute `a.download` set by `downloadResult`: `file.` and the extension. -/
def downloadName (operation : Operation) (originalName : List Char) : List Char :=
  "file.".toList ++ extension operation originalName

/-- The method `downloadResult`. -/
def downloadResult (s : State) (data : Data) (operation : Operation)
    (originalName : List Char) : State :=
  { s with downloads := s.downloads ++
      [{ name := downloadName operation originalName, data := data }] }

/-- The value `fileContent.split(',')[0] || ''` that `processFile` passes to
`downloadResult` for a decode operation. -/
def originalNameOf (fileContent : List Char) : List Char :=
  orElse (split fileContent ',').head? []

/-- The method `processFile`. Reading the file is taken to succeed, so the only
error caught is the one thrown by `toByteArray`. -/
def processFile (s : State) (operation : Operation) : State :=
  match s.file with
  | none => showStatus s .selectFileFirst
  | some file =>
    match operation with
    | .encode =>
      let result := encodeFile file
      showStatus (downloadResult s (.text result) operation []) .completed
    | .decode =>
      let fileContent := file.text
      if !isValidBase64 fileContent then showStatus s .invalidBase64
      else
        let originalName := originalNameOf fileContent
        match decodeFile file with
        | .error e => showStatus s (.failed e)
        | .ok parts => showStatus (downloadResult s (.blob parts) operation originalName) .completed

/-- The number of passes of a chunked loop over `total` bytes or characters. -/
def passes (total : Nat) : Nat := (total + CHUNK_SIZE - 1) / CHUNK_SIZE

/-- The progress values of a loop that reports `offset / total` after each chunk,
with no clamp: `k * CHUNK_SIZE / total` after chunk `k`. -/
def progressTrace (total : Nat) : List ℚ :=
  (List.range (passes total)).map (fun k => (((k + 1) * CHUNK_SIZE : Nat) : ℚ) / (total : ℚ))

/-! ## Sample inputs -/

/-- A converter with no file selected. -/
def emptyState : State := { file := none, shown := [], downloads := [] }

/-- A text file with the given content. -/
def textFile (content : List Char) : File :=
  { name := "input.txt".toList, type := "text/plain".toList, bytes := [], text := content }

/-- A file of `n` zero bytes. -/
def zeroFile (n : Nat) : File :=
  { name := "zero.dat".toList, type := "text/plain".toList, bytes := List.replicate n 0, text := [] }

/-- The five bytes of `Hello`. -/
def helloFile : File :=
  { name := "hello.txt".toList, type := "text/plain".toList,
    bytes := [0x48, 0x65, 0x6C, 0x6C, 0x6F], text := "Hello".toList }

/-! ## Selecting a file -/

theorem zeroFile_size (n : Nat) : (zeroFile n).size = n := by
  simp [zeroFile, File.size]

theorem setFile_too_large (s : State) (file : File) (h : 100 * 1024 * 1024 < file.size) :
    setFile s (some file) = showStatus s .fileTooLarge := by
  simp [setFile, h]

theorem setFile_accepted (s : State) (file : File) (h : file.size ≤ 100 * 1024 * 1024) :
    setFile s (some file) =
      { file := some file
        shown := s.shown ++ (if isBinaryFile file.name then [StatusMsg.binaryWarning] else []) ++
          [StatusMsg.fileSelected file.name file.size]
        downloads := s.downloads } := by
  have h2 : ¬ file.size > 100 * 1024 * 1024 := by omega
  by_cases hb : isBinaryFile file.name = true <;> simp [setFile, h2, hb, showStatus]

/-- C7: `setFile` stores the file and reports it as selected exactly when its size
is at most 100 MiB; a larger file only adds the status `File too large`, leaving
the selection and the downloads as they were. A file of 104857600 bytes is
stored, a file of 104857601 bytes is not. -/
theorem setFile_size_limit (s : State) (file : File) :
    ((setFile s (some file)).shown.getLast? = some (.fileSelected file.name file.size) ↔
        file.size ≤ 100 * 1024 * 1024) ∧
    (s.file ≠ some file →
      ((setFile s (some file)).file = some file ↔ file.size ≤ 100 * 1024 * 1024)) ∧
    (file.size ≤ 100 * 1024 * 1024 → (setFile s (some file)).file = some file) ∧
    (100 * 1024 * 1024 < file.size → setFile s (some file) = showStatus s .fileTooLarge) ∧
    (file.size = 104857600 → (setFile s (some file)).file = some file) ∧
    (file.size = 104857601 → setFile s (some file) = showStatus s .fileTooLarge) := by
  refine ⟨⟨fun h => ?_, fun h => ?_⟩, fun hs => ⟨fun h => ?_, fun h => ?_⟩, fun h => ?_,
    setFile_too_large s file, fun h => ?_, fun h => ?_⟩
  · by_contra hc
    rw [setFile_too_large s file (by omega)] at h
    simp [showStatus] at h
  · rw [setFile_accepted s file h]; simp
  · by_contra hc
    rw [setFile_too_large s file (by omega)] at h
    exact hs h
  · rw [setFile_accepted s file h]
  · rw [setFile_accepted s file h]
  · rw [setFile_accepted s file (by omega)]
  · exact setFile_too_large s file (by omega)

theorem setFile_size_limit_witness :
    (setFile emptyState (some (zeroFile 104857600))).file = some (zeroFile 104857600) ∧
    setFile emptyState (some (zeroFile 104857601)) = showStatus emptyState .fileTooLarge :=
  ⟨(setFile_size_limit emptyState (zeroFile 104857600)).2.2.2.2.1 (zeroFile_size 104857600),
   (setFile_size_limit emptyState (zeroFile 104857601)).2.2.2.2.2 (zeroFile_size 104857601)⟩

theorem processFile_file (s : State) (operation : Operation) :
    (processFile s operation).file = s.file := by
  unfold processFile
  split
  · rfl
  · cases operation
    · rfl
    · simp only []
      split
      · rfl
      · split <;> rfl

theorem processFile_showStatus (s : State) (msg : StatusMsg) (operation : Operation) :
    (processFile (showStatus s msg) operation).downloads = (processFile s operation).downloads ∧
    (processFile (showStatus s msg) operation).shown.getLast? =
      (processFile s operation).shown.getLast? := by
  unfold processFile
  cases hf : s.file with
  | none => simp [showStatus, hf]
  | some file =>
    cases operation with
    | encode => simp [showStatus, hf, downloadResult]
    | decode =>
      simp only [showStatus, hf]
      split
      · simp
      · split <;> simp [downloadResult]

/-- C10: a rejected argument of `setFile` (no file, or a file above 100 MiB) leaves
the selected file as it was, so the next `processFile` starts the same download
and ends on the same status as without the call; an accepted file becomes the
selected file, also when its name draws the binary-file warning. -/
theorem setFile_frame (s : State) (arg : Option File) (operation : Operation) :
    ((arg = none ∨ ∃ file, arg = some file ∧ 100 * 1024 * 1024 < file.size) →
      (setFile s arg).file = s.file ∧
      (processFile (setFile s arg) operation).file = s.file ∧
      (processFile (setFile s arg) operation).downloads = (processFile s operation).downloads ∧
      (processFile (setFile s arg) operation).shown.getLast? =
        (processFile s operation).shown.getLast?) ∧
    (∀ file, arg = some file → file.size ≤ 100 * 1024 * 1024 →
      (setFile s arg).file = some file ∧
      (isBinaryFile file.name = true → StatusMsg.binaryWarning ∈ (setFile s arg).shown)) := by
  constructor
  · intro h
    have hrej : ∃ msg, setFile s arg = showStatus s msg := by
      rcases h with h | ⟨file, h, hsize⟩
      · exact ⟨.noFileSelected, by subst h; rfl⟩
      · exact ⟨.fileTooLarge, by subst h; exact setFile_too_large s file hsize⟩
    obtain ⟨msg, hmsg⟩ := hrej
    rw [hmsg]
    refine ⟨rfl, ?_, (processFile_showStatus s msg operation).1,
      (processFile_showStatus s msg operation).2⟩
    rw [processFile_file]; rfl
  · intro file harg hsize
    subst harg
    rw [setFile_accepted s file hsize]
    refine ⟨rfl, fun hb => ?_⟩
    simp [hb]

theorem setFile_frame_witness :
    (processFile (setFile { emptyState with file := some helloFile }
        (some (zeroFile 104857601))) .encode).downloads =
      (processFile { emptyState with file := some helloFile } .encode).downloads ∧
    (setFile { emptyState with file := some helloFile }
        (some { helloFile with name := "setup.EXE".toList })).file =
      some { helloFile with name := "setup.EXE".toList } :=
  ⟨((setFile_frame { emptyState with file := some helloFile } (some (zeroFile 104857601))
      .encode).1 (Or.inr ⟨zeroFile 104857601, rfl,
        by rw [zeroFile_size]; decide⟩)).2.2.1,
   ((setFile_frame { emptyState with file := some helloFile }
      (some { helloFile with name := "setup.EXE".toList }) .encode).2
        { helloFile with name := "setup.EXE".toList } rfl (by decide)).1⟩

/-! ## Fields of a string -/

theorem split_of_not_mem (sep : Char) (s : List Char) (h : sep ∉ s) : split s sep = [s] := by
  induction s with
  | nil => rfl
  | cons c cs ih =>
    have hc : c ≠ sep := fun e => h (by simp [e])
    have hcs : sep ∉ cs := fun e => h (by simp [e])
    simp [split, hc, ih hcs]

theorem split_append_sep (sep : Char) (pre rest : List Char) (h : sep ∉ pre) :
    split (pre ++ sep :: rest) sep = pre :: split rest sep := by
  induction pre with
  | nil => simp [split]
  | cons c cs ih =>
    have hc : c ≠ sep := fun e => h (by simp [e])
    have hcs : sep ∉ cs := fun e => h (by simp [e])
    simp [split, hc, ih hcs]

theorem split_head_initial (sep : Char) (s : List Char) :
    ∃ f fs, split s sep = f :: fs ∧ f <+: s := by
  induction s with
  | nil => exact ⟨[], [], rfl, List.prefix_refl _⟩
  | cons c cs ih =>
    obtain ⟨f, fs, hs, hp⟩ := ih
    by_cases hc : c = sep
    · exact ⟨[], split cs sep, by simp [split, hc], List.nil_prefix⟩
    · exact ⟨c :: f, fs, by simp [split, hc, hs], by simpa using hp⟩

theorem lazyUntil_base64 (m rest : List Char)
    (h : ∀ c ∈ m, c ≠ ';' ∧ isLineTerminator c = false) :
    lazyUntil ";base64".toList (m ++ ";base64".toList ++ rest) = some m := by
  have hp : ";base64".toList = [';', 'b', 'a', 's', 'e', '6', '4'] := rfl
  rw [hp]
  induction m with
  | nil => simp [lazyUntil, List.isPrefixOf]
  | cons c cs ih =>
    have hc := h c (by simp)
    have hcs : ∀ d ∈ cs, d ≠ ';' ∧ isLineTerminator d = false := fun d hd => h d (by simp [hd])
    have ih2 := ih hcs
    simp only [List.cons_append, List.append_assoc, List.nil_append] at ih2 ⊢
    have hne : (';' == c) = false := by
      simpa using fun e : ';' = c => hc.1 e.symm
    simp [lazyUntil, List.isPrefixOf, hne, hc.2, ih2]

theorem originalNameOf_header (pre rest : List Char) (h : ',' ∉ pre) (hne : pre ≠ []) :
    originalNameOf (pre ++ ',' :: rest) = pre := by
  unfold originalNameOf
  rw [split_append_sep ',' pre rest h]
  cases pre with
  | nil => exact absurd rfl hne
  | cons c cs => rfl

theorem extension_of_mime (mime rest : List Char)
    (h : ∀ c ∈ mime, c ≠ ',' ∧ c ≠ ';' ∧ isLineTerminator c = false) :
    extension .decode (originalNameOf ("data:".toList ++ mime ++ ";base64,".toList ++ rest)) =
      orElse ((split mime '/').get? 1) "bin".toList := by
  have h1 : "data:".toList ++ mime ++ ";base64,".toList ++ rest =
      ("data:".toList ++ mime ++ ";base64".toList) ++ ',' :: rest := by
    have : ";base64,".toList = ";base64".toList ++ [','] := rfl
    rw [this]; simp
  have h2 : ',' ∉ "data:".toList ++ mime ++ ";base64".toList := by
    intro hm
    simp only [List.mem_append] at hm
    rcases hm with (hm | hm) | hm
    · revert hm; decide
    · exact (h _ hm).1 rfl
    · revert hm; decide
  have h3 : "data:".toList ++ mime ++ ";base64".toList ≠ [] := by
    have : "data:".toList = 'd' :: "ata:".toList := rfl
    rw [this]; simp
  rw [h1, originalNameOf_header _ _ h2 h3]
  have h4 : headerMatch ("data:".toList ++ mime ++ ";base64".toList) = some mime := by
    have hd : "data:".toList = ['d', 'a', 't', 'a', ':'] := rfl
    have hl := lazyUntil_base64 mime [] (fun c hc => ⟨(h c hc).2.1, (h c hc).2.2⟩)
    simp only [List.append_nil] at hl
    unfold headerMatch
    rw [hd]
    simp only [List.isPrefixOf, List.cons_append, List.nil_append, List.drop_succ_cons,
      List.drop_zero, beq_self_eq_true, Bool.and_self, if_true]
    exact hl
  have h5 : "data:".toList ++ mime ++ ";base64".toList =
      'd' :: ("ata:".toList ++ mime ++ ";base64".toList) := rfl
  unfold extension
  simp only []
  rw [h5]
  simp only []
  rw [← h5, h4]
  cases mime <;> rfl

theorem originalNameOf_initial (text : List Char) : originalNameOf text <+: text := by
  obtain ⟨f, fs, hs, hp⟩ := split_head_initial ',' text
  unfold originalNameOf
  rw [hs]
  cases f with
  | nil => exact List.nil_prefix
  | cons c cs => exact hp

theorem extension_no_header (text : List Char) (h : ¬ "data:".toList <+: text) :
    extension .decode (originalNameOf text) = "bin".toList := by
  have hm : headerMatch (originalNameOf text) = none := by
    unfold headerMatch
    split
    · next hp =>
      exact absurd ((List.isPrefixOf_iff_prefix.mp hp).trans (originalNameOf_initial text)) h
    · rfl
  unfold extension
  simp only []
  split
  · rfl
  · rw [hm]

/-- A header `data:<type>/<subtype>;base64,` whose type and subtype hold none of `/`,
`,`, `;` or a line terminator, with a subtype that is not empty: the download of a
decode operation is named `file.<subtype>`. -/
theorem downloadName_token_header (type subtype rest : List Char)
    (h : ∀ c ∈ type ++ subtype, c ≠ '/' ∧ c ≠ ',' ∧ c ≠ ';' ∧ isLineTerminator c = false)
    (hne : subtype ≠ []) :
    downloadName .decode (originalNameOf
      ("data:".toList ++ (type ++ '/' :: subtype) ++ ";base64,".toList ++ rest)) =
      "file.".toList ++ subtype := by
  have hmime : ∀ c ∈ type ++ '/' :: subtype, c ≠ ',' ∧ c ≠ ';' ∧ isLineTerminator c = false := by
    intro c hc
    simp only [List.mem_append, List.mem_cons] at hc
    rcases hc with hc | hc | hc
    · exact (h c (by simp [hc])).2
    · subst hc; decide
    · exact (h c (by simp [hc])).2
  have hslash : '/' ∉ type := fun hm => (h _ (by simp [hm])).1 rfl
  have hslash2 : '/' ∉ subtype := fun hm => (h _ (by simp [hm])).1 rfl
  unfold downloadName
  rw [extension_of_mime _ rest hmime]
  have hsplit : split (type ++ '/' :: subtype) '/' = [type, subtype] := by
    rw [split_append_sep '/' type subtype hslash, split_of_not_mem '/' subtype hslash2]
  rw [hsplit]
  cases subtype with
  | nil => exact absurd rfl hne
  | cons c cs => rfl

/-! ## The payload of a text -/

/-- C3: a file of size 0 encodes to the header alone, with no progress reported.
The header-only string of an empty `text/plain` file is not decoded to an empty
byte sequence: its field after the comma is empty, so `decodeFile` takes the whole
text, header included, as the payload and `toByteArray` throws on its 23
characters; `isValidBase64` rejects the same text before that. -/
theorem empty_file_header_not_stripped :
    (∀ name type text, encodeFile { name := name, type := type, bytes := [], text := text } =
      header type) ∧
    (∀ name type text,
      (encodeRun { name := name, type := type, bytes := [], text := text }).progress = []) ∧
    encodeFile (zeroFile 0) = "data:text/plain;base64,".toList ∧
    payload (encodeFile (zeroFile 0)) = "data:text/plain;base64,".toList ∧
    decodeFile (textFile (encodeFile (zeroFile 0))) =
      .error "Invalid string. Length must be a multiple of 4" ∧
    isValidBase64 (encodeFile (zeroFile 0)) = false ∧
    processFile { emptyState with file := some (textFile (encodeFile (zeroFile 0))) } .decode =
      { file := some (textFile (encodeFile (zeroFile 0)))
        shown := [.invalidBase64], downloads := [] } :=
  ⟨fun _ _ _ => rfl, fun _ _ _ => rfl, by decide, by decide, by rfl, by decide, by decide⟩

/-- C4: the payload is not everything after the first comma. The header-only text
`data:text/plain;base64,` has an empty field after its comma, so the payload is the
whole text and the prefix is not removed; the same holds for `AAAA,`. On
`x,AAAA,BBBB`, which `isValidBase64` accepts, the payload is the field `AAAA`
between the first and the second comma, and `decodeFile` returns the three bytes
of that field alone. A text without a comma is its own payload. -/
theorem payload_is_second_field :
    payload "data:text/plain;base64,".toList = "data:text/plain;base64,".toList ∧
    payload "AAAA,".toList = "AAAA,".toList ∧
    payload "x,AAAA,BBBB".toList = "AAAA".toList ∧
    isValidBase64 "x,AAAA,BBBB".toList = true ∧
    decodeFile (textFile "x,AAAA,BBBB".toList) = .ok [[0, 0, 0]] ∧
    payload "data:text/plain;base64,AAAA".toList = "AAAA".toList ∧
    (∀ text : List Char, ',' ∉ text → payload text = text) := by
  refine ⟨by decide, by decide, by decide, by decide, by rfl, by decide, fun text h => ?_⟩
  unfold payload
  rw [split_of_not_mem ',' text h]
  rfl

/-- C5: `isValidBase64` accepts `x,AAAA,!!!!`, whose text after the first comma
holds `,` and `!`: only the field `AAAA` is tested. `processFile` then decodes that
field and starts the download of its three bytes. The text `!!!!` is rejected. -/
theorem character_after_second_comma_accepted :
    isValidBase64 "x,AAAA,!!!!".toList = true ∧
    processFile { emptyState with file := some (textFile "x,AAAA,!!!!".toList) } .decode =
      { file := some (textFile "x,AAAA,!!!!".toList)
        shown := [.completed]
        downloads := [{ name := "file.bin".toList, data := .blob [[0, 0, 0]] }] } ∧
    isValidBase64 "!!!!".toList = false ∧
    processFile { emptyState with file := some (textFile "!!!!".toList) } .decode =
      { file := some (textFile "!!!!".toList), shown := [.invalidBase64], downloads := [] } :=
  ⟨by decide, by decide, by decide, by decide⟩

/-! ## Progress -/

theorem CHUNK_SIZE_eq : CHUNK_SIZE = 2097152 := by decide

theorem passes_zero : passes 0 = 0 := by
  unfold passes; rw [CHUNK_SIZE_eq]

theorem passes_succ (d : Nat) (h : 0 < d) : passes d = passes (d - CHUNK_SIZE) + 1 := by
  unfold passes
  rw [CHUNK_SIZE_eq]
  omega

theorem range_map_shift (c off n : Nat) (sz : ℚ) :
    (List.range (n + 1)).map (fun k => ((off + (k + 1) * c : Nat) : ℚ) / sz) =
      ((off + c : Nat) : ℚ) / sz ::
        (List.range n).map (fun k => ((off + c + (k + 1) * c : Nat) : ℚ) / sz) := by
  rw [List.range_succ_eq_map, List.map_cons, List.map_map]
  have h0 : off + (0 + 1) * c = off + c := by ring
  rw [h0]
  refine congrArg (List.cons _) (List.map_congr_left fun k _ => ?_)
  have hk : off + (k + 1 + 1) * c = off + c + (k + 1) * c := by ring
  simp only [Function.comp, Nat.succ_eq_add_one, hk]

theorem encodeLoop_progress (file : File) : ∀ (fuel : Nat) (st : EncodeState),
    file.size ≤ st.offset + fuel * CHUNK_SIZE →
    (encodeLoop file fuel st).progress = st.progress ++
      (List.range (passes (file.size - st.offset))).map
        (fun k => ((st.offset + (k + 1) * CHUNK_SIZE : Nat) : ℚ) / (file.size : ℚ)) := by
  intro fuel
  induction fuel with
  | zero =>
    intro st h
    have : file.size - st.offset = 0 := by omega
    simp [encodeLoop, this, passes_zero]
  | succ fuel ih =>
    intro st h
    by_cases hlt : st.offset < file.size
    · have hstep : encodeLoop file (fuel + 1) st = encodeLoop file fuel (encodeStep file st) := by
        simp [encodeLoop, hlt]
      have hoff : (encodeStep file st).offset = st.offset + CHUNK_SIZE := rfl
      have hprog : (encodeStep file st).progress =
          st.progress ++ [((st.offset + CHUNK_SIZE : Nat) : ℚ) / (file.size : ℚ)] := by
        simp [encodeStep]
      have hfuel : file.size ≤ st.offset + CHUNK_SIZE + fuel * CHUNK_SIZE := by
        have e : (fuel + 1) * CHUNK_SIZE = fuel * CHUNK_SIZE + CHUNK_SIZE := by ring
        omega
      have hsub : file.size - (st.offset + CHUNK_SIZE) = file.size - st.offset - CHUNK_SIZE := by
        omega
      rw [hstep, ih (encodeStep file st) (by rw [hoff]; exact hfuel),
        hoff, hprog, passes_succ (file.size - st.offset) (by omega), range_map_shift, hsub]
      simp
    · have : file.size - st.offset = 0 := by omega
      simp [encodeLoop, hlt, this, passes_zero]

theorem encodeRun_progress (file : File) : (encodeRun file).progress = progressTrace file.size := by
  have h := encodeLoop_progress file file.size
    { offset := 0, base64 := header file.type, progress := [] }
    (by
      have hc : 1 ≤ CHUNK_SIZE := by rw [CHUNK_SIZE_eq]; omega
      have := Nat.mul_le_mul_left file.size hc
      simp only [Nat.zero_add]
      omega)
  unfold encodeRun progressTrace
  rw [h]
  dsimp only
  rw [List.nil_append, Nat.sub_zero]
  simp only [Nat.zero_add]

theorem decodeLoop_progress (base64Data : List Char) : ∀ (fuel : Nat) (st : DecodeState),
    base64Data.length ≤ st.offset + fuel * CHUNK_SIZE →
    ∃ n, n ≤ passes (base64Data.length - st.offset) ∧
      (decodeLoop base64Data fuel st).progress = st.progress ++
        (List.range n).map
          (fun k => ((st.offset + (k + 1) * CHUNK_SIZE : Nat) : ℚ) / (base64Data.length : ℚ)) ∧
      ((decodeLoop base64Data fuel st).error = none →
        n = passes (base64Data.length - st.offset)) := by
  intro fuel
  induction fuel with
  | zero =>
    intro st h
    have h0 : base64Data.length - st.offset = 0 := by omega
    refine ⟨0, Nat.zero_le _, ?_, fun _ => ?_⟩
    · rw [List.range_zero, List.map_nil, List.append_nil]; rfl
    · rw [h0, passes_zero]
  | succ fuel ih =>
    intro st h
    by_cases hlt : st.offset < base64Data.length
    · cases hb : toByteArray (substr base64Data st.offset CHUNK_SIZE) with
      | error e =>
        have hstep : decodeLoop base64Data (fuel + 1) st = { st with error := some e } := by
          simp only [decodeLoop, hlt, if_true, hb]
        rw [hstep]
        refine ⟨0, Nat.zero_le _, ?_, fun he => ?_⟩
        · rw [List.range_zero, List.map_nil, List.append_nil]
        · exact absurd he (by simp)
      | ok bytes =>
        have hstep : decodeLoop base64Data (fuel + 1) st = decodeLoop base64Data fuel
            { offset := st.offset + CHUNK_SIZE
              byteArrays := st.byteArrays ++ [bytes]
              progress := st.progress ++
                [((st.offset + CHUNK_SIZE : Nat) : ℚ) / (base64Data.length : ℚ)]
              error := none } := by
          simp only [decodeLoop, hlt, if_true, hb]
        have hfuel : base64Data.length ≤ st.offset + CHUNK_SIZE + fuel * CHUNK_SIZE := by
          have e : (fuel + 1) * CHUNK_SIZE = fuel * CHUNK_SIZE + CHUNK_SIZE := by ring
          omega
        have hsub : base64Data.length - (st.offset + CHUNK_SIZE) =
            base64Data.length - st.offset - CHUNK_SIZE := by omega
        obtain ⟨n, hn, hp, he⟩ := ih
          { offset := st.offset + CHUNK_SIZE
            byteArrays := st.byteArrays ++ [bytes]
            progress := st.progress ++
              [((st.offset + CHUNK_SIZE : Nat) : ℚ) / (base64Data.length : ℚ)]
            error := none } hfuel
        rw [hstep]
        dsimp only at hn hp he
        rw [hsub] at hn he
        refine ⟨n + 1, ?_, ?_, fun herr => ?_⟩
        · rw [passes_succ (base64Data.length - st.offset) (by omega)]; omega
        · rw [hp, range_map_shift, List.append_assoc, List.singleton_append]
        · rw [passes_succ (base64Data.length - st.offset) (by omega), he herr]
    · have h0 : base64Data.length - st.offset = 0 := by omega
      have hstep : decodeLoop base64Data (fuel + 1) st = st := by
        simp only [decodeLoop, hlt, if_false]
      rw [hstep]
      refine ⟨0, Nat.zero_le _, ?_, fun _ => ?_⟩
      · rw [List.range_zero, List.map_nil, List.append_nil]
      · rw [h0, passes_zero]

theorem fuel_enough (n : Nat) : n ≤ 0 + n * CHUNK_SIZE := by
  have hc : 1 ≤ CHUNK_SIZE := by rw [CHUNK_SIZE_eq]; omega
  have := Nat.mul_le_mul_left n hc
  omega

theorem decodeRun_progress (file : File) :
    (decodeRun file).progress <+: progressTrace (payload file.text).length ∧
    ((decodeRun file).error = none →
      (decodeRun file).progress = progressTrace (payload file.text).length) := by
  obtain ⟨n, hn, hp, he⟩ := decodeLoop_progress (payload file.text) (payload file.text).length
    { offset := 0, byteArrays := [], progress := [], error := none } (fuel_enough _)
  dsimp only at hn hp he
  rw [Nat.sub_zero] at hn he
  rw [List.nil_append] at hp
  simp only [Nat.zero_add] at hp
  have hrun : (decodeRun file).progress = (List.range n).map
      (fun k => (((k + 1) * CHUNK_SIZE : Nat) : ℚ) / ((payload file.text).length : ℚ)) := hp
  constructor
  · rw [hrun]
    unfold progressTrace
    have hr : List.range n = (List.range (passes (payload file.text).length)).take n := by
      rw [List.take_range, Nat.min_eq_left hn]
    rw [hr, List.map_take]
    exact List.take_prefix _ _
  · intro herr
    rw [hrun, he herr]
    rfl

theorem progressTrace_getElem? (total k : Nat) (hk : k < passes total) :
    (progressTrace total)[k]? = some ((((k + 1) * CHUNK_SIZE : Nat) : ℚ) / (total : ℚ)) := by
  unfold progressTrace
  rw [List.getElem?_map, List.getElem?_range hk]
  rfl

theorem passes_lt (total k : Nat) (hk : k + 1 < passes total) : (k + 1) * CHUNK_SIZE < total := by
  have hC := CHUNK_SIZE_eq
  unfold passes at hk
  rw [hC] at hk ⊢
  omega

theorem passes_le (total k : Nat) (hk : k + 1 = passes total) :
    total ≤ (k + 1) * CHUNK_SIZE ∧ ((k + 1) * CHUNK_SIZE = total ↔ total % CHUNK_SIZE = 0) := by
  have hC := CHUNK_SIZE_eq
  unfold passes at hk
  rw [hC] at hk ⊢
  omega

theorem passes_pos (total k : Nat) (hk : k < passes total) : 0 < total := by
  rcases Nat.eq_zero_or_pos total with h | h
  · rw [h, passes_zero] at hk; omega
  · exact h

theorem progressTrace_sorted (total : Nat) : List.Pairwise (· ≤ ·) (progressTrace total) := by
  unfold progressTrace
  rw [List.pairwise_map]
  refine (List.pairwise_lt_range (passes total)).imp ?_
  intro a b hab
  have h1 : (a + 1) * CHUNK_SIZE ≤ (b + 1) * CHUNK_SIZE :=
    Nat.mul_le_mul_right _ (by omega)
  have h2 : (((a + 1) * CHUNK_SIZE : Nat) : ℚ) ≤ (((b + 1) * CHUNK_SIZE : Nat) : ℚ) :=
    Nat.cast_le.mpr h1
  exact div_le_div_of_nonneg_right h2 (Nat.cast_nonneg total)

/-- C6, as amended: `encodeFile` and `decodeFile` (when no chunk throws) report
`k * CHUNK_SIZE / total` after chunk `k`, with no clamp. Every reported value is
positive, the values never decrease, every value but the last is below 1, and the
last is at least 1: it is 1 exactly when `total` is a multiple of `CHUNK_SIZE`. -/
theorem progress_not_clamped (file : File) :
    (encodeRun file).progress = progressTrace file.size ∧
    ((decodeRun file).error = none →
      (decodeRun file).progress = progressTrace (payload file.text).length) ∧
    (∀ total : Nat,
      (progressTrace total).length = passes total ∧
      List.Pairwise (· ≤ ·) (progressTrace total) ∧
      ∀ k, k < passes total →
        ∃ p : ℚ, (progressTrace total)[k]? = some p ∧
          p = (((k + 1) * CHUNK_SIZE : Nat) : ℚ) / (total : ℚ) ∧ 0 < p ∧
          (k + 1 < passes total → p < 1) ∧
          (k + 1 = passes total → 1 ≤ p ∧ (p = 1 ↔ total % CHUNK_SIZE = 0))) := by
  refine ⟨encodeRun_progress file, (decodeRun_progress file).2, fun total => ⟨?_, ?_, ?_⟩⟩
  · unfold progressTrace
    rw [List.length_map, List.length_range]
  · exact progressTrace_sorted total
  · intro k hk
    have htot : (0 : ℚ) < (total : ℚ) := Nat.cast_pos.mpr (passes_pos total k hk)
    have hnum : (0 : ℚ) < (((k + 1) * CHUNK_SIZE : Nat) : ℚ) := by
      apply Nat.cast_pos.mpr
      have hC := CHUNK_SIZE_eq
      rw [hC]
      omega
    refine ⟨_, progressTrace_getElem? total k hk, rfl, div_pos hnum htot, fun h => ?_, fun h => ?_⟩
    · rw [div_lt_one htot]
      exact Nat.cast_lt.mpr (passes_lt total k h)
    · obtain ⟨h1, h2⟩ := passes_le total k h
      refine ⟨?_, ?_⟩
      · rw [le_div_iff₀ htot, one_mul]
        exact Nat.cast_le.mpr h1
      · rw [div_eq_one_iff_eq (ne_of_gt htot), Nat.cast_inj]
        exact h2

theorem progress_not_clamped_witness :
    (decodeRun (textFile "AAAA".toList)).progress =
      progressTrace (payload (textFile "AAAA".toList).text).length ∧
    ∃ p : ℚ, (progressTrace 5)[0]? = some p ∧ 1 ≤ p :=
  ⟨(progress_not_clamped (textFile "AAAA".toList)).2.1 (by rfl),
   (((progress_not_clamped helloFile).2.2 5).2.2 0 (by decide)).imp
     (fun _ hp => ⟨hp.1, (hp.2.2.2.2 (by decide)).1⟩)⟩

/-- C6, as stated, fails: on the five bytes of `Hello` the only value that
`encodeFile` reports is `2097152 / 5`, and on the text `AAAA` the only value that
`decodeFile` reports is `2097152 / 4`; neither is `min (offset / total) 1 = 1`, and
neither lies in the interval from 0 to 1. -/
theorem progress_exceeds_one :
    (encodeRun helloFile).progress = [2097152 / 5] ∧
    (decodeRun (textFile "AAAA".toList)).progress = [2097152 / 4] ∧
    ¬ (∀ p ∈ (encodeRun helloFile).progress, 0 ≤ p ∧ p ≤ 1) ∧
    ¬ (∀ p ∈ (decodeRun (textFile "AAAA".toList)).progress, 0 ≤ p ∧ p ≤ 1) ∧
    (encodeRun helloFile).progress ≠ [min (2097152 / 5) 1] ∧
    (encodeRun helloFile).progress.getLast? ≠ some 1 := by
  have he : (encodeRun helloFile).progress = [2097152 / 5] := by rfl
  have hd : (decodeRun (textFile "AAAA".toList)).progress = [2097152 / 4] := by rfl
  refine ⟨he, hd, ?_, ?_, ?_, ?_⟩
  · rw [he]
    intro h
    have := (h _ (List.mem_singleton.mpr rfl)).2
    norm_num at this
  · rw [hd]
    intro h
    have := (h _ (List.mem_singleton.mpr rfl)).2
    norm_num at this
  · rw [he]
    intro h
    have h1 := List.head_eq_of_cons_eq h
    norm_num at h1
  · rw [he]
    intro h
    have h1 : (2097152 / 5 : ℚ) = 1 := by simpa using h
    norm_num at h1

/-! ## Chunked decoding of a validated text -/

theorem isBase64Char_ne_pad (c : Char) (h : isBase64Char c = true) : (c != '=') = true := by
  rw [bne_iff_ne]
  rintro rfl
  revert h
  decide

theorem base64Regex_cons (a b c d : Char) (rest : List Char) :
    base64Regex (a :: b :: c :: d :: rest) = true ↔
      (isBase64Char a = true ∧ isBase64Char b = true ∧ isBase64Char c = true ∧
        isBase64Char d = true ∧ base64Regex rest = true) ∨
      (rest = [] ∧ isBase64Char a = true ∧ isBase64Char b = true ∧
        ((isBase64Char c = true ∧ d = '=') ∨ (c = '=' ∧ d = '='))) := by
  simp only [base64Regex, Bool.or_eq_true, Bool.and_eq_true, List.isEmpty_iff, beq_iff_eq]
  tauto

theorem base64Regex_length : ∀ s : List Char, base64Regex s = true → s.length % 4 = 0
  | [], _ => rfl
  | [_], h => by simp [base64Regex] at h
  | [_, _], h => by simp [base64Regex] at h
  | [_, _, _], h => by simp [base64Regex] at h
  | a :: b :: c :: d :: rest, h => by
    rcases (base64Regex_cons a b c d rest).mp h with ⟨_, _, _, _, hr⟩ | ⟨hr, _⟩
    · have := base64Regex_length rest hr
      simp only [List.length_cons]
      omega
    · subst hr; simp

/-- The part of a validated text before the first `=` is the whole text, or stops
inside a group of four. -/
theorem base64Regex_takeWhile : ∀ s : List Char, base64Regex s = true →
    (s.takeWhile (fun c => c != '=')).length = s.length ∨
      (s.takeWhile (fun c => c != '=')).length % 4 ≠ 0
  | [], _ => Or.inl rfl
  | [_], h => by simp [base64Regex] at h
  | [_, _], h => by simp [base64Regex] at h
  | [_, _, _], h => by simp [base64Regex] at h
  | a :: b :: c :: d :: rest, h => by
    rcases (base64Regex_cons a b c d rest).mp h with ⟨ha, hb, hc, hd, hr⟩ | ⟨hr, ha, hb, hcd⟩
    · have ih := base64Regex_takeWhile rest hr
      simp only [List.takeWhile_cons, isBase64Char_ne_pad _ ha, isBase64Char_ne_pad _ hb,
        isBase64Char_ne_pad _ hc, isBase64Char_ne_pad _ hd, if_true, List.length_cons]
      omega
    · subst hr
      right
      rcases hcd with ⟨hc, hd⟩ | ⟨hc, hd⟩
      · subst hd
        simp [List.takeWhile_cons, isBase64Char_ne_pad _ ha, isBase64Char_ne_pad _ hb,
          isBase64Char_ne_pad _ hc]
      · subst hc; subst hd
        simp [List.takeWhile_cons, isBase64Char_ne_pad _ ha, isBase64Char_ne_pad _ hb]

theorem toByteArray_of_regex (s : List Char) (h : base64Regex s = true) :
    ∃ bytes, toByteArray s = .ok bytes := by
  have hlen : ¬ s.length % 4 > 0 := by
    have := base64Regex_length s h
    omega
  unfold toByteArray
  simp only [hlen, if_false]
  split
  · exact ⟨_, rfl⟩
  · next hne =>
    split
    · next h0 =>
      rcases base64Regex_takeWhile s h with h1 | h1
      · exact absurd h1 hne
      · exact absurd h0 h1
    · exact ⟨_, rfl⟩

/-- A validated text holds symbols and `=` only. -/
theorem base64Regex_chars : ∀ s : List Char, base64Regex s = true →
    ∀ c ∈ s, isBase64Char c = true ∨ c = '='
  | [], _, c, hc => absurd hc (List.not_mem_nil c)
  | [_], h, _, _ => by simp [base64Regex] at h
  | [_, _], h, _, _ => by simp [base64Regex] at h
  | [_, _, _], h, _, _ => by simp [base64Regex] at h
  | a :: b :: c :: d :: rest, h, x, hx => by
    simp only [List.mem_cons] at hx
    rcases (base64Regex_cons a b c d rest).mp h with ⟨ha, hb, hc, hd, hr⟩ | ⟨hr, ha, hb, hcd⟩
    · rcases hx with hx | hx | hx | hx | hx
      · rw [hx]; exact Or.inl ha
      · rw [hx]; exact Or.inl hb
      · rw [hx]; exact Or.inl hc
      · rw [hx]; exact Or.inl hd
      · exact base64Regex_chars rest hr x hx
    · subst hr
      rcases hx with hx | hx | hx | hx | hx
      · rw [hx]; exact Or.inl ha
      · rw [hx]; exact Or.inl hb
      · rw [hx]
        rcases hcd with ⟨hc, _⟩ | ⟨hc, _⟩
        · exact Or.inl hc
        · exact Or.inr hc
      · rw [hx]
        rcases hcd with ⟨_, hd⟩ | ⟨_, hd⟩
        · exact Or.inr hd
        · exact Or.inr hd
      · exact absurd hx (List.not_mem_nil x)

/-- The method `isValidBase64` rejects a text whose payload, as the code takes it,
holds a character that is neither a symbol nor `=`. -/
theorem isValidBase64_rejects (str : List Char) (c : Char) (hc : c ∈ payload str)
    (hsym : isBase64Char c = false) (hpad : c ≠ '=') : isValidBase64 str = false := by
  cases h : isValidBase64 str with
  | false => rfl
  | true =>
    rcases base64Regex_chars (payload str) h c hc with h1 | h1
    · rw [hsym] at h1; exact absurd h1 (by decide)
    · exact absurd h1 hpad

/-- In a validated text the first `=` is one of the last two characters. -/
theorem base64Regex_padding_end : ∀ s : List Char, base64Regex s = true →
    s.length ≤ (s.takeWhile (fun c => c != '=')).length + 2
  | [], _ => Nat.zero_le _
  | [_], h => by simp [base64Regex] at h
  | [_, _], h => by simp [base64Regex] at h
  | [_, _, _], h => by simp [base64Regex] at h
  | a :: b :: c :: d :: rest, h => by
    rcases (base64Regex_cons a b c d rest).mp h with ⟨ha, hb, hc, hd, hr⟩ | ⟨hr, ha, hb, _⟩
    · have ih := base64Regex_padding_end rest hr
      simp only [List.takeWhile_cons, isBase64Char_ne_pad _ ha, isBase64Char_ne_pad _ hb,
        isBase64Char_ne_pad _ hc, isBase64Char_ne_pad _ hd, if_true, List.length_cons]
      omega
    · subst hr
      simp only [List.takeWhile_cons, isBase64Char_ne_pad _ ha, isBase64Char_ne_pad _ hb,
        if_true, List.length_cons, List.length_nil]
      omega

theorem toByteArray_full (s : List Char) (h4 : s.length % 4 = 0)
    (hv : (s.takeWhile (fun c => c != '=')).length = s.length) :
    toByteArray s = .ok (decodeQuads ((s.takeWhile (fun c => c != '=')).length / 4)
      (s.takeWhile (fun c => c != '='))) := by
  have hlen : ¬ s.length % 4 > 0 := by omega
  unfold toByteArray
  simp only [hlen, if_false, hv, if_true]

theorem toByteArray_padded (s : List Char) (h4 : s.length % 4 = 0)
    (hv : (s.takeWhile (fun c => c != '=')).length % 4 ≠ 0) :
    toByteArray s = .ok (decodeQuads ((s.takeWhile (fun c => c != '=')).length / 4)
      (s.takeWhile (fun c => c != '=')) ++
      decodeTail ((s.takeWhile (fun c => c != '=')).drop
        ((s.takeWhile (fun c => c != '=')).length / 4 * 4))) := by
  have hlen : ¬ s.length % 4 > 0 := by omega
  have hne : ¬ (s.takeWhile (fun c => c != '=')).length = s.length := by
    intro h; rw [h] at hv; exact hv h4
  unfold toByteArray
  simp only [hlen, if_false, hne, hv]

theorem decodeQuads_zero (l : List Char) : decodeQuads 0 l = [] := by
  unfold decodeQuads
  rfl

theorem decodeQuads_succ (n : Nat) (a b c d : Char) (rest : List Char) :
    decodeQuads (n + 1) (a :: b :: c :: d :: rest) = decodeQuad a b c d ++ decodeQuads n rest :=
  rfl

theorem decodeQuads_append : ∀ (m : Nat) (A l : List Char) (n : Nat), A.length = 4 * m →
    decodeQuads (m + n) (A ++ l) = decodeQuads m A ++ decodeQuads n l
  | 0, A, l, n, h => by
    have hA : A = [] := List.length_eq_zero.mp (by omega)
    subst hA
    rw [decodeQuads_zero, Nat.zero_add, List.nil_append, List.nil_append]
  | m + 1, a :: b :: c :: d :: A, l, n, h => by
    have hA : A.length = 4 * m := by simp only [List.length_cons] at h; omega
    have hmn : m + 1 + n = (m + n) + 1 := by omega
    rw [hmn]
    show decodeQuads (m + n + 1) (a :: b :: c :: d :: (A ++ l)) = _
    rw [decodeQuads_succ, decodeQuads_succ, decodeQuads_append m A l n hA, List.append_assoc]
  | m + 1, [], _, _, h => by simp at h
  | m + 1, [_], _, _, h => by simp at h; omega
  | m + 1, [_, _], _, _, h => by simp at h; omega
  | m + 1, [_, _, _], _, _, h => by simp at h; omega

theorem takeWhile_append_of_all (p : Char → Bool) (A R : List Char) (h : ∀ c ∈ A, p c = true) :
    (A ++ R).takeWhile p = A ++ R.takeWhile p := by
  induction A with
  | nil => rfl
  | cons a A ih =>
    have ha : p a = true := h a (by simp)
    have hA : ∀ c ∈ A, p c = true := fun c hc => h c (by simp [hc])
    simp only [List.cons_append, List.takeWhile_cons, ha, if_true, ih hA]

/-- Decoding a run of complete groups followed by a validated text: the bytes of
the run, then the bytes of the rest. -/
theorem toByteArray_append (A R : List Char) (m : Nat)
    (hA : ∀ c ∈ A, isBase64Char c = true) (hlen : A.length = 4 * m)
    (hR : base64Regex R = true) (bytes : List Nat) (hb : toByteArray R = .ok bytes) :
    toByteArray (A ++ R) = .ok (decodeQuads m A ++ bytes) := by
  have hR4 := base64Regex_length R hR
  have hAR4 : (A ++ R).length % 4 = 0 := by rw [List.length_append]; omega
  have htw : (A ++ R).takeWhile (fun c => c != '=') = A ++ R.takeWhile (fun c => c != '=') :=
    takeWhile_append_of_all _ A R (fun c hc => isBase64Char_ne_pad c (hA c hc))
  rcases base64Regex_takeWhile R hR with hv | hv
  · rw [toByteArray_full R hR4 hv] at hb
    have hv2 : ((A ++ R).takeWhile (fun c => c != '=')).length = (A ++ R).length := by
      rw [htw, List.length_append, List.length_append, hv]
    rw [toByteArray_full (A ++ R) hAR4 hv2, htw]
    have hq : (A ++ R.takeWhile (fun c => c != '=')).length / 4 =
        m + (R.takeWhile (fun c => c != '=')).length / 4 := by
      rw [List.length_append]; omega
    rw [hq, decodeQuads_append m A _ _ hlen]
    injection hb with hb
    rw [hb]
  · rw [toByteArray_padded R hR4 hv] at hb
    have hv2 : ((A ++ R).takeWhile (fun c => c != '=')).length % 4 ≠ 0 := by
      rw [htw, List.length_append]; omega
    rw [toByteArray_padded (A ++ R) hAR4 hv2, htw]
    have hq : (A ++ R.takeWhile (fun c => c != '=')).length / 4 =
        m + (R.takeWhile (fun c => c != '=')).length / 4 := by
      rw [List.length_append]; omega
    have hd : (A ++ R.takeWhile (fun c => c != '=')).drop
        ((m + (R.takeWhile (fun c => c != '=')).length / 4) * 4) =
        (R.takeWhile (fun c => c != '=')).drop
          ((R.takeWhile (fun c => c != '=')).length / 4 * 4) := by
      have e : (m + (R.takeWhile (fun c => c != '=')).length / 4) * 4 =
          A.length + (R.takeWhile (fun c => c != '=')).length / 4 * 4 := by
        rw [hlen]; ring
      rw [e, List.drop_append]
    rw [hq, hd, decodeQuads_append m A _ _ hlen, List.append_assoc]
    injection hb with hb
    rw [hb]

/-- A validated text cut before its end, at a multiple of four: symbols only on the
left, a validated text on the right. -/
theorem base64Regex_split : ∀ (m : Nat) (R : List Char), base64Regex R = true →
    4 * m < R.length →
    (∀ c ∈ R.take (4 * m), isBase64Char c = true) ∧ base64Regex (R.drop (4 * m)) = true
  | 0, R, h, _ => by
    rw [Nat.mul_zero, List.take_zero, List.drop_zero]
    exact ⟨fun c hc => absurd hc (List.not_mem_nil c), h⟩
  | m + 1, a :: b :: c :: d :: rest, h, hlt => by
    have e : 4 * (m + 1) = 4 * m + 1 + 1 + 1 + 1 := by ring
    rw [e]
    simp only [List.take_succ_cons, List.drop_succ_cons]
    rcases (base64Regex_cons a b c d rest).mp h with ⟨ha, hb, hc, hd, hr⟩ | ⟨hr, _⟩
    · have hlt2 : 4 * m < rest.length := by simp only [List.length_cons] at hlt; omega
      obtain ⟨h1, h2⟩ := base64Regex_split m rest hr hlt2
      refine ⟨fun x hx => ?_, h2⟩
      simp only [List.mem_cons] at hx
      rcases hx with hx | hx | hx | hx | hx
      · rw [hx]; exact ha
      · rw [hx]; exact hb
      · rw [hx]; exact hc
      · rw [hx]; exact hd
      · exact h1 x hx
    · subst hr
      simp only [List.length_cons, List.length_nil] at hlt
      omega
  | m + 1, [], _, hlt => by simp only [List.length_nil] at hlt; omega
  | m + 1, [_], _, hlt => by simp only [List.length_cons, List.length_nil] at hlt; omega
  | m + 1, [_, _], _, hlt => by simp only [List.length_cons, List.length_nil] at hlt; omega
  | m + 1, [_, _, _], _, hlt => by simp only [List.length_cons, List.length_nil] at hlt; omega

theorem base64Regex_of_symbols : ∀ (m : Nat) (A : List Char), A.length = 4 * m →
    (∀ c ∈ A, isBase64Char c = true) → base64Regex A = true
  | 0, A, h, _ => by
    have hA : A = [] := List.length_eq_zero.mp (by omega)
    subst hA; rfl
  | m + 1, a :: b :: c :: d :: rest, h, hA => by
    have hlen : rest.length = 4 * m := by simp only [List.length_cons] at h; omega
    have ih := base64Regex_of_symbols m rest hlen (fun x hx => hA x (by simp [hx]))
    exact (base64Regex_cons a b c d rest).mpr
      (Or.inl ⟨hA a (by simp), hA b (by simp), hA c (by simp), hA d (by simp), ih⟩)
  | m + 1, [], h, _ => by simp only [List.length_nil] at h; omega
  | m + 1, [_], h, _ => by simp only [List.length_cons, List.length_nil] at h; omega
  | m + 1, [_, _], h, _ => by simp only [List.length_cons, List.length_nil] at h; omega
  | m + 1, [_, _, _], h, _ => by simp only [List.length_cons, List.length_nil] at h; omega

theorem toByteArray_nil : toByteArray [] = .ok [] := rfl

theorem toByteArray_symbols (A : List Char) (m : Nat)
    (hA : ∀ c ∈ A, isBase64Char c = true) (hlen : A.length = 4 * m) :
    toByteArray A = .ok (decodeQuads m A) := by
  have h := toByteArray_append A [] m hA hlen rfl [] toByteArray_nil
  rw [List.append_nil, List.append_nil] at h
  exact h

theorem CHUNK_SIZE_groups : CHUNK_SIZE = 4 * 524288 := by decide

theorem decodeLoop_stop (P : List Char) (fuel : Nat) (st : DecodeState)
    (h : ¬ st.offset < P.length) : decodeLoop P fuel st = st := by
  cases fuel with
  | zero => rfl
  | succ fuel => simp only [decodeLoop, h, if_false]

theorem decodeLoop_step (P : List Char) (fuel : Nat) (st : DecodeState) (bytes : List Nat)
    (h : st.offset < P.length) (hb : toByteArray ((P.drop st.offset).take CHUNK_SIZE) = .ok bytes) :
    decodeLoop P (fuel + 1) st = decodeLoop P fuel
      { offset := st.offset + CHUNK_SIZE
        byteArrays := st.byteArrays ++ [bytes]
        progress := st.progress ++ [((st.offset + CHUNK_SIZE : Nat) : ℚ) / (P.length : ℚ)]
        error := none } := by
  simp only [decodeLoop, h, if_true, substr, hb]

/-- On a validated payload the loop of `decodeFile` never stops on an error, and the
parts it collects are the bytes of the not yet decoded rest, decoded in one call. -/
theorem decodeLoop_valid (P : List Char) : ∀ (fuel : Nat) (st : DecodeState),
    base64Regex (P.drop st.offset) = true → st.error = none →
    P.length ≤ st.offset + fuel * CHUNK_SIZE →
    ∃ bytes, toByteArray (P.drop st.offset) = .ok bytes ∧
      (decodeLoop P fuel st).error = none ∧
      (decodeLoop P fuel st).byteArrays.flatten = st.byteArrays.flatten ++ bytes := by
  intro fuel
  induction fuel with
  | zero =>
    intro st _ herr hfuel
    have hnil : P.drop st.offset = [] := List.drop_eq_nil_of_le (by omega)
    rw [hnil]
    exact ⟨[], toByteArray_nil, herr, (List.append_nil _).symm⟩
  | succ fuel ih =>
    intro st hR herr hfuel
    by_cases hlt : st.offset < P.length
    · have hfuel2 : P.length ≤ st.offset + CHUNK_SIZE + fuel * CHUNK_SIZE := by
        have e : (fuel + 1) * CHUNK_SIZE = fuel * CHUNK_SIZE + CHUNK_SIZE := by ring
        omega
      have hdrop : P.drop (st.offset + CHUNK_SIZE) = (P.drop st.offset).drop CHUNK_SIZE := by
        rw [List.drop_drop, Nat.add_comm]
      by_cases hbig : CHUNK_SIZE < (P.drop st.offset).length
      · have hsplit := base64Regex_split 524288 (P.drop st.offset) hR
          (by rw [← CHUNK_SIZE_groups]; exact hbig)
        rw [← CHUNK_SIZE_groups] at hsplit
        have hlen : ((P.drop st.offset).take CHUNK_SIZE).length = 4 * 524288 := by
          rw [List.length_take, Nat.min_eq_left (Nat.le_of_lt hbig), CHUNK_SIZE_groups]
        have hb1 := toByteArray_symbols _ 524288 hsplit.1 hlen
        obtain ⟨b2, hb2, he, hf⟩ := ih
          { offset := st.offset + CHUNK_SIZE
            byteArrays := st.byteArrays ++ [decodeQuads 524288 ((P.drop st.offset).take CHUNK_SIZE)]
            progress := st.progress ++ [((st.offset + CHUNK_SIZE : Nat) : ℚ) / (P.length : ℚ)]
            error := none }
          (by rw [hdrop]; exact hsplit.2) rfl hfuel2
        dsimp only at hb2 hf
        rw [hdrop] at hb2
        have hwhole := toByteArray_append _ _ 524288 hsplit.1 hlen hsplit.2 b2 hb2
        rw [List.take_append_drop] at hwhole
        refine ⟨_, hwhole, ?_, ?_⟩
        · rw [decodeLoop_step P fuel st _ hlt hb1]; exact he
        · rw [decodeLoop_step P fuel st _ hlt hb1, hf, List.flatten_append, List.flatten_cons,
            List.flatten_nil, List.append_nil, List.append_assoc]
      · have htake : (P.drop st.offset).take CHUNK_SIZE = P.drop st.offset :=
          List.take_of_length_le (by omega)
        obtain ⟨b1, hb1⟩ := toByteArray_of_regex _ hR
        have hnil : P.drop (st.offset + CHUNK_SIZE) = [] := by
          rw [hdrop]; exact List.drop_eq_nil_of_le (by omega)
        obtain ⟨b2, hb2, he, hf⟩ := ih
          { offset := st.offset + CHUNK_SIZE
            byteArrays := st.byteArrays ++ [b1]
            progress := st.progress ++ [((st.offset + CHUNK_SIZE : Nat) : ℚ) / (P.length : ℚ)]
            error := none }
          (by rw [hnil]; rfl) rfl hfuel2
        dsimp only at hb2 hf
        rw [hnil, toByteArray_nil] at hb2
        injection hb2 with hb2
        subst hb2
        have hstep := decodeLoop_step P fuel st b1 hlt (by rw [htake]; exact hb1)
        refine ⟨b1, hb1, ?_, ?_⟩
        · rw [hstep]; exact he
        · rw [hstep, hf, List.append_nil, List.flatten_append, List.flatten_cons,
            List.flatten_nil, List.append_nil]
    · have hnil : P.drop st.offset = [] := List.drop_eq_nil_of_le (by omega)
      rw [hnil, decodeLoop_stop P _ st hlt]
      exact ⟨[], toByteArray_nil, herr, (List.append_nil _).symm⟩

theorem base64Regex_chunk (P : List Char) (hP : base64Regex P = true) (k : Nat) :
    base64Regex (substr P (k * CHUNK_SIZE) CHUNK_SIZE) = true := by
  have hR : base64Regex (P.drop (k * CHUNK_SIZE)) = true := by
    by_cases hlt : k * CHUNK_SIZE < P.length
    · have e : k * CHUNK_SIZE = 4 * (k * 524288) := by rw [CHUNK_SIZE_groups]; ring
      rw [e] at hlt ⊢
      exact (base64Regex_split _ P hP hlt).2
    · rw [List.drop_eq_nil_of_le (by omega)]; rfl
  unfold substr
  by_cases hbig : CHUNK_SIZE < (P.drop (k * CHUNK_SIZE)).length
  · have hsplit := base64Regex_split 524288 _ hR (by rw [← CHUNK_SIZE_groups]; exact hbig)
    rw [← CHUNK_SIZE_groups] at hsplit
    refine base64Regex_of_symbols 524288 _ ?_ hsplit.1
    rw [List.length_take, Nat.min_eq_left (Nat.le_of_lt hbig), CHUNK_SIZE_groups]
  · rw [List.take_of_length_le (by omega)]
    exact hR

/-- C9: for a text accepted by `isValidBase64`, `decodeFile` returns a blob, and the
bytes of its parts are the bytes that `toByteArray` gives for the whole payload in
one call. `CHUNK_SIZE` is a multiple of 4, and every chunk cut by the loop is
itself accepted by the expression of the validator and has a length that is a
multiple of 4. -/
theorem decodeFile_chunks_eq_whole (file : File) (h : isValidBase64 file.text = true) :
    ∃ parts, decodeFile file = .ok parts ∧
      toByteArray (payload file.text) = .ok (blobBytes parts) ∧
      CHUNK_SIZE % 4 = 0 ∧
      ∀ k, base64Regex (substr (payload file.text) (k * CHUNK_SIZE) CHUNK_SIZE) = true ∧
        (substr (payload file.text) (k * CHUNK_SIZE) CHUNK_SIZE).length % 4 = 0 := by
  have hP : base64Regex (payload file.text) = true := h
  obtain ⟨bytes, hb, he, hf⟩ := decodeLoop_valid (payload file.text) (payload file.text).length
    { offset := 0, byteArrays := [], progress := [], error := none }
    (by rw [List.drop_zero]; exact hP) rfl (fuel_enough _)
  dsimp only at hb
  rw [List.drop_zero] at hb
  have he2 : (decodeRun file).error = none := he
  have hf2 : (decodeRun file).byteArrays.flatten = bytes := by
    have : (decodeRun file).byteArrays.flatten = ([] : List (List Nat)).flatten ++ bytes := hf
    rw [this]; rfl
  refine ⟨(decodeRun file).byteArrays, ?_, ?_, ?_, fun k => ?_⟩
  · unfold decodeFile
    rw [he2]
  · unfold blobBytes
    rw [hf2]; exact hb
  · rw [CHUNK_SIZE_groups]
  · have hk := base64Regex_chunk (payload file.text) hP k
    exact ⟨hk, base64Regex_length _ hk⟩

theorem decodeFile_chunks_eq_whole_witness :
    isValidBase64 "data:text/plain;base64,SGVsbG8=".toList = true ∧
    ∃ parts, decodeFile (textFile "data:text/plain;base64,SGVsbG8=".toList) = .ok parts ∧
      toByteArray (payload (textFile "data:text/plain;base64,SGVsbG8=".toList).text) =
        .ok (blobBytes parts) :=
  ⟨by decide,
   (decodeFile_chunks_eq_whole (textFile "data:text/plain;base64,SGVsbG8=".toList)
      (by decide)).imp (fun _ hp => ⟨hp.1, hp.2.1⟩)⟩

/-! ## Encoding chunk by chunk -/

theorem fromByteArray_length : ∀ bytes : List Nat,
    (fromByteArray bytes).length = 4 * ((bytes.length + 2) / 3)
  | [] => rfl
  | [_] => by simp [fromByteArray]
  | [_, _] => by simp [fromByteArray]
  | a :: b :: c :: rest => by
    have ih := fromByteArray_length rest
    simp only [fromByteArray, List.length_cons, ih]
    omega

theorem encodeLoop_stop (file : File) (fuel : Nat) (st : EncodeState)
    (h : ¬ st.offset < file.size) : encodeLoop file fuel st = st := by
  cases fuel with
  | zero => rfl
  | succ fuel => simp only [encodeLoop, h, if_false]

theorem encodeLoop_step (file : File) (fuel : Nat) (st : EncodeState)
    (h : st.offset < file.size) :
    encodeLoop file (fuel + 1) st = encodeLoop file fuel (encodeStep file st) := by
  simp only [encodeLoop, h, if_true]

/-- A file of at most `CHUNK_SIZE` bytes is encoded in one call of `fromByteArray`. -/
theorem encodeFile_single_chunk (file : File) (h : file.size ≤ CHUNK_SIZE) :
    encodeFile file = header file.type ++ fromByteArray file.bytes := by
  unfold encodeFile encodeRun
  cases hs : file.size with
  | zero =>
    have hb : file.bytes = [] := List.length_eq_zero.mp hs
    rw [hb]
    exact (List.append_nil _).symm
  | succ n =>
    rw [encodeLoop_step file n _ (by rw [hs]; exact Nat.succ_pos n),
      encodeLoop_stop file n _ (by
        show ¬ 0 + CHUNK_SIZE < file.size
        omega)]
    show header file.type ++ fromByteArray (slice file.bytes 0 (0 + CHUNK_SIZE)) = _
    unfold slice
    rw [List.drop_zero, List.take_of_length_le (by
      show file.size ≤ 0 + CHUNK_SIZE - 0
      omega)]

/-- A file of `CHUNK_SIZE + 1` bytes is encoded in two calls of `fromByteArray`. -/
theorem encodeFile_two_chunks (file : File) (h : file.size = CHUNK_SIZE + 1) :
    encodeFile file = header file.type ++ fromByteArray (file.bytes.take CHUNK_SIZE) ++
      fromByteArray (file.bytes.drop CHUNK_SIZE) := by
  have hC := CHUNK_SIZE_eq
  have hfuel : file.size = (CHUNK_SIZE - 1) + 1 + 1 := by omega
  have hlen : file.bytes.length = CHUNK_SIZE + 1 := h
  unfold encodeFile encodeRun
  rw [hfuel, encodeLoop_step file _ _ (by
      show 0 < file.size
      omega),
    encodeLoop_step file _ _ (by
      show 0 + CHUNK_SIZE < file.size
      omega),
    encodeLoop_stop file _ _ (by
      show ¬ 0 + CHUNK_SIZE + CHUNK_SIZE < file.size
      omega)]
  show header file.type ++ fromByteArray (slice file.bytes 0 (0 + CHUNK_SIZE)) ++
    fromByteArray (slice file.bytes (0 + CHUNK_SIZE) (0 + CHUNK_SIZE + CHUNK_SIZE)) = _
  unfold slice
  have e1 : 0 + CHUNK_SIZE - 0 = CHUNK_SIZE := by omega
  have e2 : 0 + CHUNK_SIZE + CHUNK_SIZE - (0 + CHUNK_SIZE) = CHUNK_SIZE := by omega
  have e3 : 0 + CHUNK_SIZE = CHUNK_SIZE := by omega
  rw [e1, e2, e3, List.drop_zero,
    List.take_of_length_le (l := file.bytes.drop CHUNK_SIZE) (by rw [List.length_drop]; omega)]

/-- C2: on a file of `CHUNK_SIZE + 1` zero bytes the string of `encodeFile` is four
characters longer than the header followed by the Base64 encoding of the whole
byte sequence: the first chunk of 2097152 bytes is padded on its own. The five
bytes of `Hello` do give `data:text/plain;base64,SGVsbG8=`. -/
theorem encodeFile_pads_first_chunk :
    (encodeFile (zeroFile 2097153)).length =
      (header (zeroFile 2097153).type ++ fromByteArray (zeroFile 2097153).bytes).length + 4 ∧
    encodeFile (zeroFile 2097153) ≠
      header (zeroFile 2097153).type ++ fromByteArray (zeroFile 2097153).bytes ∧
    encodeFile helloFile = "data:text/plain;base64,SGVsbG8=".toList := by
  have hC := CHUNK_SIZE_eq
  have hsize : (zeroFile 2097153).size = CHUNK_SIZE + 1 := by rw [zeroFile_size, hC]
  have hlen : (zeroFile 2097153).bytes.length = 2097153 := zeroFile_size 2097153
  have hl : (encodeFile (zeroFile 2097153)).length =
      (header (zeroFile 2097153).type ++ fromByteArray (zeroFile 2097153).bytes).length + 4 := by
    rw [encodeFile_two_chunks _ hsize]
    simp only [List.length_append, fromByteArray_length, List.length_take, List.length_drop,
      hlen, hC]
    omega
  refine ⟨hl, fun he => ?_, by decide⟩
  rw [he] at hl
  omega

/-! ## Decoding what `encodeFile` returns -/

theorem lookup_mem (i : Nat) : lookup i ∈ code := by
  unfold lookup
  have h : i % 64 < code.length := by
    have : code.length = 64 := by decide
    omega
  rw [List.getD_eq_getElem _ _ h]
  exact List.getElem_mem h

theorem code_ne_pad : ∀ c ∈ code, (c != '=') = true ∧ c ≠ ',' := by decide

theorem lookup_ne_pad (i : Nat) : (lookup i != '=') = true :=
  (code_ne_pad _ (lookup_mem i)).1

theorem fromByteArray_ne_comma : ∀ (bytes : List Nat), ∀ c ∈ fromByteArray bytes, c ≠ ','
  | [], c, hc => absurd hc (List.not_mem_nil c)
  | [_], c, hc => by
    simp only [fromByteArray, List.mem_cons, List.mem_singleton] at hc
    rcases hc with hc | hc | hc | hc | hc
    · rw [hc]; exact (code_ne_pad _ (lookup_mem _)).2
    · rw [hc]; exact (code_ne_pad _ (lookup_mem _)).2
    · rw [hc]; decide
    · rw [hc]; decide
    · exact absurd hc (List.not_mem_nil c)
  | [_, _], c, hc => by
    simp only [fromByteArray, List.mem_cons, List.mem_singleton] at hc
    rcases hc with hc | hc | hc | hc | hc
    · rw [hc]; exact (code_ne_pad _ (lookup_mem _)).2
    · rw [hc]; exact (code_ne_pad _ (lookup_mem _)).2
    · rw [hc]; exact (code_ne_pad _ (lookup_mem _)).2
    · rw [hc]; decide
    · exact absurd hc (List.not_mem_nil c)
  | _ :: _ :: _ :: rest, c, hc => by
    simp only [fromByteArray, List.mem_cons] at hc
    rcases hc with hc | hc | hc | hc | hc
    · rw [hc]; exact (code_ne_pad _ (lookup_mem _)).2
    · rw [hc]; exact (code_ne_pad _ (lookup_mem _)).2
    · rw [hc]; exact (code_ne_pad _ (lookup_mem _)).2
    · rw [hc]; exact (code_ne_pad _ (lookup_mem _)).2
    · exact fromByteArray_ne_comma rest c hc

/-- The number of symbols that `fromByteArray` writes before the padding. -/
theorem fromByteArray_takeWhile_length : ∀ bytes : List Nat,
    ((fromByteArray bytes).takeWhile (fun c => c != '=')).length = (4 * bytes.length + 2) / 3
  | [] => rfl
  | [_] => by
    simp [fromByteArray, List.takeWhile_cons, lookup_ne_pad]
  | [_, _] => by
    simp [fromByteArray, List.takeWhile_cons, lookup_ne_pad]
  | a :: b :: c :: rest => by
    have ih := fromByteArray_takeWhile_length rest
    simp only [fromByteArray, List.takeWhile_cons, lookup_ne_pad, if_true, List.length_cons, ih]
    omega

theorem decodeQuads_length : ∀ (n : Nat) (l : List Char), 4 * n ≤ l.length →
    (decodeQuads n l).length = 3 * n
  | 0, l, _ => by rw [decodeQuads_zero]; rfl
  | n + 1, a :: b :: c :: d :: rest, h => by
    have hr : 4 * n ≤ rest.length := by simp only [List.length_cons] at h; omega
    rw [decodeQuads_succ, List.length_append, decodeQuads_length n rest hr]
    simp only [decodeQuad, List.length_cons, List.length_nil]
    omega
  | n + 1, [], h => by simp only [List.length_nil] at h; omega
  | n + 1, [_], h => by simp only [List.length_cons, List.length_nil] at h; omega
  | n + 1, [_, _], h => by simp only [List.length_cons, List.length_nil] at h; omega
  | n + 1, [_, _, _], h => by simp only [List.length_cons, List.length_nil] at h; omega

theorem decodeTail_length (l : List Char) (h : l.length = 3) : (decodeTail l).length = 2 := by
  match l, h with
  | [_, _, _], _ => rfl

theorem payload_header (pre body : List Char) (hpre : ',' ∉ pre) (hbody : ',' ∉ body)
    (hne : body ≠ []) : payload (pre ++ ',' :: body) = body := by
  unfold payload
  rw [split_append_sep ',' pre body hpre, split_of_not_mem ',' body hbody]
  cases body with
  | nil => exact absurd rfl hne
  | cons c cs => rfl

theorem take_of_takeWhile (p : Char → Bool) (E R : List Char) (n : Nat)
    (hn : n ≤ (E.takeWhile p).length) :
    (E ++ R).take n = (E.takeWhile p).take n ∧
      ((E ++ R).take n).takeWhile p = (E ++ R).take n := by
  have hE : E.takeWhile p ++ (E.dropWhile p ++ R) = E ++ R := by
    rw [← List.append_assoc, List.takeWhile_append_dropWhile]
  have h1 : (E ++ R).take n = (E.takeWhile p).take n := by
    rw [← hE, List.take_append_of_le_length hn]
  refine ⟨h1, ?_⟩
  rw [h1, List.takeWhile_eq_self_iff]
  intro x hx
  exact List.mem_takeWhile_imp (List.mem_of_mem_take hx)

theorem takeWhile_of_drop (p : Char → Bool) (E R : List Char) (n : Nat)
    (hn : n ≤ (E.takeWhile p).length) (hlt : (E.takeWhile p).length < E.length) :
    ((E ++ R).drop n).takeWhile p = (E.takeWhile p).drop n := by
  have hE : E.takeWhile p ++ (E.dropWhile p ++ R) = E ++ R := by
    rw [← List.append_assoc, List.takeWhile_append_dropWhile]
  have hlen : (E.takeWhile p).length + (E.dropWhile p).length = E.length := by
    rw [← List.length_append, List.takeWhile_append_dropWhile]
  have hD : E.dropWhile p ≠ [] := by
    intro h0
    rw [h0, List.length_nil] at hlen
    omega
  have hhead := List.head_dropWhile_not p E hD
  rw [← hE, List.drop_append_of_le_length hn,
    takeWhile_append_of_all p _ _ (fun x hx => List.mem_takeWhile_imp (List.mem_of_mem_drop hx))]
  cases hd : E.dropWhile p with
  | nil => exact absurd hd hD
  | cons d ds =>
    have hpd : p d = false := by
      have : (E.dropWhile p).head hD = d := by simp only [hd, List.head_cons]
      rw [← this]; exact hhead
    simp only [List.cons_append, List.takeWhile_cons, hpd, List.append_nil]
    simp

/-- A payload of more than one and at most two chunks is decoded in two calls of
`toByteArray`. -/
theorem decodeFile_two_chunks (file : File) (b1 b2 : List Nat)
    (h1 : CHUNK_SIZE < (payload file.text).length)
    (h2 : (payload file.text).length ≤ CHUNK_SIZE + CHUNK_SIZE)
    (hb1 : toByteArray ((payload file.text).take CHUNK_SIZE) = .ok b1)
    (hb2 : toByteArray ((payload file.text).drop CHUNK_SIZE) = .ok b2) :
    decodeFile file = .ok [b1, b2] := by
  have hC := CHUNK_SIZE_eq
  have hfuel : (payload file.text).length = ((payload file.text).length - 2) + 1 + 1 := by omega
  have hs1 : toByteArray ((List.drop 0 (payload file.text)).take CHUNK_SIZE) = .ok b1 := by
    rw [List.drop_zero]; exact hb1
  have hs2 : toByteArray ((List.drop (0 + CHUNK_SIZE) (payload file.text)).take CHUNK_SIZE) =
      .ok b2 := by
    rw [Nat.zero_add, List.take_of_length_le (by rw [List.length_drop]; omega)]
    exact hb2
  have hrun : decodeRun file =
      { offset := 0 + CHUNK_SIZE + CHUNK_SIZE
        byteArrays := [] ++ [b1] ++ [b2]
        progress := [] ++ [((0 + CHUNK_SIZE : Nat) : ℚ) / ((payload file.text).length : ℚ)] ++
          [((0 + CHUNK_SIZE + CHUNK_SIZE : Nat) : ℚ) / ((payload file.text).length : ℚ)]
        error := none } := by
    unfold decodeRun
    dsimp only
    rw [hfuel]
    rw [decodeLoop_step (payload file.text) _
      { offset := 0, byteArrays := [], progress := [], error := none } b1 (by
        show 0 < (payload file.text).length
        omega) hs1]
    rw [decodeLoop_step (payload file.text) _ _ b2 (by
        show 0 + CHUNK_SIZE < (payload file.text).length
        omega) hs2]
    rw [decodeLoop_stop (payload file.text) _ _ (by
        show ¬ 0 + CHUNK_SIZE + CHUNK_SIZE < (payload file.text).length
        omega)]
    rw [← hfuel]
  unfold decodeFile
  rw [hrun]
  rfl

/-- The payload that `encodeFile` writes for `CHUNK_SIZE + 1` bytes: the first chunk
ends on one `=`, which stands at character 2796203 of 2796208. `decodeFile` reads
the second chunk of the payload only up to that `=`, and the parts of its blob
hold 2097152 bytes; `isValidBase64` rejects the text. -/
theorem decodeFile_stops_at_padding (file : File) (E1 E2 : List Char)
    (hl1 : E1.length = 2796204)
    (ht1 : (E1.takeWhile (fun c => c != '=')).length = 2796203)
    (hl2 : E2.length = 4) (hp : payload file.text = E1 ++ E2) :
    (∃ parts, decodeFile file = .ok parts ∧ (blobBytes parts).length = 2097152) ∧
      isValidBase64 file.text = false := by
  have hC := CHUNK_SIZE_eq
  refine ⟨?_, ?_⟩
  swap
  · cases hv : isValidBase64 file.text with
    | false => rfl
    | true =>
      have hreg : base64Regex (E1 ++ E2) = true := by rw [← hp]; exact hv
      have hend := base64Regex_padding_end _ hreg
      have htw := takeWhile_of_drop (fun c => c != '=') E1 E2 0 (Nat.zero_le _) (by omega)
      rw [List.drop_zero, List.drop_zero] at htw
      rw [htw, ht1, List.length_append, hl1, hl2] at hend
      omega
  have hlen : (payload file.text).length = 2796208 := by
    rw [hp, List.length_append, hl1, hl2]
  have hn : CHUNK_SIZE ≤ (E1.takeWhile (fun c => c != '=')).length := by omega
  have hlt : (E1.takeWhile (fun c => c != '=')).length < E1.length := by omega
  obtain ⟨_, hA⟩ := take_of_takeWhile (fun c => c != '=') E1 E2 CHUNK_SIZE hn
  have hB := takeWhile_of_drop (fun c => c != '=') E1 E2 CHUNK_SIZE hn hlt
  rw [← hp] at hA hB
  have hAlen : ((payload file.text).take CHUNK_SIZE).length = CHUNK_SIZE := by
    rw [List.length_take, hlen]; omega
  have hBlen : ((payload file.text).drop CHUNK_SIZE).length = 699056 := by
    rw [List.length_drop, hlen]; omega
  have hBv : (((payload file.text).drop CHUNK_SIZE).takeWhile (fun c => c != '=')).length =
      699051 := by
    rw [hB, List.length_drop, ht1]; omega
  have hb1 := toByteArray_full ((payload file.text).take CHUNK_SIZE) (by rw [hAlen]; omega)
    (by rw [hA])
  have hb2 := toByteArray_padded ((payload file.text).drop CHUNK_SIZE) (by rw [hBlen])
    (by rw [hBv]; omega)
  rw [hA, hAlen] at hb1
  rw [hBv] at hb2
  refine ⟨_, decodeFile_two_chunks file _ _ (by omega) (by omega) hb1 hb2, ?_⟩
  unfold blobBytes
  rw [List.flatten_cons, List.flatten_cons, List.flatten_nil, List.append_nil,
    List.length_append, List.length_append,
    decodeQuads_length _ _ (by rw [hAlen]; omega),
    decodeQuads_length _ _ (by rw [hBv]; omega),
    decodeTail_length _ (by rw [List.length_drop, hBv])]
  omega

theorem textFile_text (content : List Char) : (textFile content).text = content := rfl

/-- The round trip on a file of `CHUNK_SIZE + 1` bytes whose header has its only
comma at the end: `decodeFile` returns a blob of 2097152 bytes. -/
theorem roundtrip_two_chunks (file : File) (pre : List Char)
    (hsize : file.size = CHUNK_SIZE + 1) (hhead : header file.type = pre ++ [','])
    (hpre : ',' ∉ pre) :
    (∃ parts, decodeFile (textFile (encodeFile file)) = .ok parts ∧
      (blobBytes parts).length = 2097152) ∧
      isValidBase64 (textFile (encodeFile file)).text = false := by
  have hC := CHUNK_SIZE_eq
  have hlen : file.bytes.length = 2097153 := by
    have : file.bytes.length = CHUNK_SIZE + 1 := hsize
    omega
  have hl1 : (file.bytes.take CHUNK_SIZE).length = 2097152 := by
    rw [List.length_take, hlen, hC]; rfl
  have hl2 : (file.bytes.drop CHUNK_SIZE).length = 1 := by
    rw [List.length_drop, hlen, hC]
  have henc : encodeFile file = pre ++ ',' :: (fromByteArray (file.bytes.take CHUNK_SIZE) ++
      fromByteArray (file.bytes.drop CHUNK_SIZE)) := by
    rw [encodeFile_two_chunks _ hsize, hhead, List.append_assoc, List.append_assoc,
      List.singleton_append]
  have hE1 : (fromByteArray (file.bytes.take CHUNK_SIZE)).length = 2796204 := by
    rw [fromByteArray_length, hl1]
  have hT1 : ((fromByteArray (file.bytes.take CHUNK_SIZE)).takeWhile
      (fun c => c != '=')).length = 2796203 := by
    rw [fromByteArray_takeWhile_length, hl1]
  have hE2 : (fromByteArray (file.bytes.drop CHUNK_SIZE)).length = 4 := by
    rw [fromByteArray_length, hl2]
  have hpay : payload (textFile (encodeFile file)).text =
      fromByteArray (file.bytes.take CHUNK_SIZE) ++ fromByteArray (file.bytes.drop CHUNK_SIZE) := by
    rw [textFile_text, henc]
    refine payload_header _ _ hpre ?_ ?_
    · intro hm
      rcases List.mem_append.mp hm with hm | hm
      · exact fromByteArray_ne_comma _ _ hm rfl
      · exact fromByteArray_ne_comma _ _ hm rfl
    · intro h0
      have := congrArg List.length h0
      rw [List.length_append, hE1, hE2] at this
      exact absurd this (by decide)
  exact decodeFile_stops_at_padding _ _ _ hE1 hT1 hE2 hpay

/-- C1: the round trip fails on `CHUNK_SIZE + 1` zero bytes. `decodeFile`, run on
the string that `encodeFile` returns for them, returns a blob of 2097152 bytes,
one byte short: the first chunk is encoded with padding of its own, and
`toByteArray` stops at that padding. `isValidBase64` rejects the same string. -/
theorem roundtrip_loses_last_byte :
    (∃ parts, decodeFile (textFile (encodeFile (zeroFile 2097153))) = .ok parts ∧
      (blobBytes parts).length = 2097152 ∧
      (zeroFile 2097153).bytes.length = 2097153 ∧
      blobBytes parts ≠ (zeroFile 2097153).bytes) ∧
    isValidBase64 (textFile (encodeFile (zeroFile 2097153))).text = false := by
  have hsize : (zeroFile 2097153).size = CHUNK_SIZE + 1 := by
    rw [zeroFile_size, CHUNK_SIZE_eq]
  have hlen : (zeroFile 2097153).bytes.length = 2097153 := zeroFile_size 2097153
  obtain ⟨⟨parts, hparts, hbytes⟩, hvalid⟩ := roundtrip_two_chunks (zeroFile 2097153)
    "data:text/plain;base64".toList hsize (by decide) (by decide)
  refine ⟨⟨parts, hparts, hbytes, hlen, fun he => ?_⟩, hvalid⟩
  rw [he, hlen] at hbytes
  exact absurd hbytes (by decide)

/-! ## The name of the download -/

theorem split_head_takeWhile (sep : Char) (s : List Char) :
    (split s sep).head? = some (s.takeWhile (fun c => c != sep)) := by
  induction s with
  | nil => rfl
  | cons c cs ih =>
    by_cases hc : c = sep
    · subst hc
      have hb : (c != c) = false := bne_self_eq_false c
      simp only [split, if_true, List.head?_cons, List.takeWhile_cons, hb]
      rfl
    · have hb : (c != sep) = true := bne_iff_ne.mpr hc
      cases hs : split cs sep with
      | nil => rw [hs] at ih; exact absurd ih (by simp)
      | cons f fs =>
        rw [hs, List.head?_cons, Option.some.injEq] at ih
        simp only [split, hc, if_false, hs, List.head?_cons, List.takeWhile_cons, hb, if_true, ih]

/-- The value `fileContent.split(',')[0] || ''` is the text before the first comma. -/
theorem originalNameOf_eq (text : List Char) :
    originalNameOf text = text.takeWhile (fun c => c != ',') := by
  unfold originalNameOf
  rw [split_head_takeWhile]
  cases text.takeWhile (fun c => c != ',') <;> rfl

theorem split_second_field (T S : List Char) (sep : Char) (h : sep ∉ T) :
    (split (T ++ sep :: S) sep).get? 1 = some (S.takeWhile (fun c => c != sep)) := by
  rw [split_append_sep sep T S h]
  have hh := split_head_takeWhile sep S
  cases hs : split S sep with
  | nil => rw [hs] at hh; exact absurd hh (by simp)
  | cons f fs =>
    rw [hs, List.head?_cons] at hh
    rw [← hh]
    rfl

theorem first_occurrence (a : Char) : ∀ l : List Char, a ∈ l →
    ∃ s t, l = s ++ a :: t ∧ a ∉ s
  | [], h => absurd h (List.not_mem_nil a)
  | x :: xs, h => by
    by_cases hx : x = a
    · exact ⟨[], xs, by rw [hx]; rfl, List.not_mem_nil a⟩
    · have hmem : a ∈ xs := by
        rcases List.mem_cons.mp h with h1 | h1
        · exact absurd h1.symm hx
        · exact h1
      obtain ⟨s, t, hl, hs⟩ := first_occurrence a xs hmem
      refine ⟨x :: s, t, by rw [hl]; rfl, fun hm => ?_⟩
      rcases List.mem_cons.mp hm with h1 | h1
      · exact hx h1.symm
      · exact hs h1

/-- The group `(.*?)` before `pat`: `lazyUntil` returns `M` exactly when the input is
`M`, then `pat`, then anything, `M` holds no line terminator, and `pat` starts at
no earlier position. -/
theorem lazyUntil_eq_some (pat : List Char) : ∀ (G M : List Char),
    lazyUntil pat G = some M ↔
      ∃ rest, G = M ++ (pat ++ rest) ∧ (∀ c ∈ M, isLineTerminator c = false) ∧
        ∀ k, k < M.length → pat.isPrefixOf ((M ++ (pat ++ rest)).drop k) = false
  | [], M => by
    unfold lazyUntil
    constructor
    · intro h
      by_cases hp : pat.isPrefixOf [] = true
      · rw [if_pos hp] at h
        have hM : M = [] := (Option.some.inj h).symm
        have hpat : pat = [] := List.prefix_nil.mp (List.isPrefixOf_iff_prefix.mp hp)
        subst hM; subst hpat
        exact ⟨[], rfl, fun c hc => absurd hc (List.not_mem_nil c),
          fun k hk => absurd hk (Nat.not_lt_zero k)⟩
      · rw [if_neg hp] at h
        exact absurd h (by simp)
    · rintro ⟨rest, hG, _, _⟩
      have h1 := List.append_eq_nil.mp hG.symm
      have h2 := List.append_eq_nil.mp h1.2
      rw [h1.1, h2.1]
      rfl
  | c :: cs, M => by
    have ih := lazyUntil_eq_some pat cs
    unfold lazyUntil
    by_cases hp : pat.isPrefixOf (c :: cs) = true
    · rw [if_pos hp]
      constructor
      · intro h
        have hM : M = [] := (Option.some.inj h).symm
        subst hM
        obtain ⟨rest, hrest⟩ := List.isPrefixOf_iff_prefix.mp hp
        exact ⟨rest, hrest.symm, fun c hc => absurd hc (List.not_mem_nil c),
          fun k hk => absurd hk (Nat.not_lt_zero k)⟩
      · rintro ⟨rest, hG, _, hmin⟩
        cases M with
        | nil => rfl
        | cons m ms =>
          have h0 := hmin 0 (Nat.succ_pos _)
          rw [List.drop_zero, ← hG, hp] at h0
          exact absurd h0 (by simp)
    · rw [if_neg hp]
      have hpf : pat.isPrefixOf (c :: cs) = false := by
        cases h : pat.isPrefixOf (c :: cs) with
        | true => exact absurd h hp
        | false => rfl
      by_cases hl : isLineTerminator c = true
      · rw [if_pos hl]
        constructor
        · intro h; exact absurd h (by simp)
        · rintro ⟨rest, hG, hlt, _⟩
          cases M with
          | nil =>
            rw [List.nil_append] at hG
            have : pat.isPrefixOf (c :: cs) = true :=
              List.isPrefixOf_iff_prefix.mpr ⟨rest, hG.symm⟩
            exact absurd this hp
          | cons m ms =>
            rw [List.cons_append] at hG
            have hm : c = m := (List.cons.inj hG).1
            have := hlt m (List.mem_cons_self m ms)
            rw [← hm, hl] at this
            exact absurd this (by simp)
      · rw [if_neg hl]
        have hlf : isLineTerminator c = false := by
          cases h : isLineTerminator c with
          | true => exact absurd h hl
          | false => rfl
        constructor
        · intro h
          cases hr : lazyUntil pat cs with
          | none => rw [hr] at h; exact absurd h (by simp)
          | some M' =>
            rw [hr, Option.map_some'] at h
            have hM : M = c :: M' := (Option.some.inj h).symm
            subst hM
            obtain ⟨rest, hcs, hlt, hmin⟩ := (ih M').mp hr
            refine ⟨rest, by rw [hcs]; rfl, fun x hx => ?_, fun k hk => ?_⟩
            · rcases List.mem_cons.mp hx with hx | hx
              · rw [hx]; exact hlf
              · exact hlt x hx
            · cases k with
              | zero =>
                rw [List.drop_zero, List.cons_append, ← hcs]
                exact hpf
              | succ j =>
                rw [List.cons_append, List.drop_succ_cons]
                exact hmin j (by simp only [List.length_cons] at hk; omega)
        · rintro ⟨rest, hG, hlt, hmin⟩
          cases M with
          | nil =>
            rw [List.nil_append] at hG
            have : pat.isPrefixOf (c :: cs) = true :=
              List.isPrefixOf_iff_prefix.mpr ⟨rest, hG.symm⟩
            exact absurd this hp
          | cons m ms =>
            rw [List.cons_append] at hG
            have hm : c = m := (List.cons.inj hG).1
            have hcs : cs = ms ++ (pat ++ rest) := (List.cons.inj hG).2
            have hr : lazyUntil pat cs = some ms :=
              (ih ms).mpr ⟨rest, hcs, fun x hx => hlt x (List.mem_cons_of_mem m hx),
                fun k hk => by
                  have := hmin (k + 1) (by simp only [List.length_cons]; omega)
                  rw [List.cons_append, List.drop_succ_cons] at this
                  exact this⟩
            rw [hr, Option.map_some', hm]

/-- The expression `/^data:(.*?);base64/` matches with group `M` exactly when the
string is `data:`, then `M`, then `;base64`, then anything, `M` holds no line
terminator, and `;base64` starts at no earlier position. -/
theorem headerMatch_eq_some (F M : List Char) :
    headerMatch F = some M ↔
      ∃ rest, F = "data:".toList ++ (M ++ (";base64".toList ++ rest)) ∧
        (∀ c ∈ M, isLineTerminator c = false) ∧
        ∀ k, k < M.length →
          (";base64".toList).isPrefixOf ((M ++ (";base64".toList ++ rest)).drop k) = false := by
  have hlen : "data:".toList.length = 5 := rfl
  unfold headerMatch
  constructor
  · intro h
    by_cases hp : "data:".toList.isPrefixOf F = true
    · rw [if_pos hp] at h
      obtain ⟨t, ht⟩ := List.isPrefixOf_iff_prefix.mp hp
      have hdrop : F.drop 5 = t := by
        rw [← ht, ← hlen, List.drop_left]
      rw [hdrop] at h
      obtain ⟨rest, hG, hlt, hmin⟩ := (lazyUntil_eq_some _ t M).mp h
      exact ⟨rest, by rw [← ht, hG], hlt, hmin⟩
    · rw [if_neg hp] at h
      exact absurd h (by simp)
  · rintro ⟨rest, hF, hlt, hmin⟩
    have hp : "data:".toList.isPrefixOf F = true :=
      List.isPrefixOf_iff_prefix.mpr ⟨_, hF.symm⟩
    have hdrop : F.drop 5 = M ++ (";base64".toList ++ rest) := by
      rw [hF, ← hlen, List.drop_left]
    rw [if_pos hp, hdrop]
    exact (lazyUntil_eq_some _ _ M).mpr ⟨rest, rfl, hlt, hmin⟩

theorem extension_of_match (F M : List Char) (hF : F ≠ []) (hM : headerMatch F = some M) :
    extension .decode F = orElse ((split M '/').get? 1) "bin".toList := by
  unfold extension
  cases F with
  | nil => exact absurd rfl hF
  | cons c cs =>
    simp only []
    rw [hM]
    cases M <;> rfl

theorem extension_no_match (F : List Char) (hM : headerMatch F = none) :
    extension .decode F = "bin".toList := by
  unfold extension
  cases F with
  | nil => rfl
  | cons c cs =>
    simp only []
    rw [hM]

theorem decodeFile_of_valid (file : File) (h : isValidBase64 file.text = true) :
    ∃ parts, decodeFile file = .ok parts := by
  have hP : base64Regex (payload file.text) = true := h
  obtain ⟨_, _, he, _⟩ := decodeLoop_valid (payload file.text) (payload file.text).length
    { offset := 0, byteArrays := [], progress := [], error := none }
    (by rw [List.drop_zero]; exact hP) rfl (fuel_enough _)
  have he2 : (decodeRun file).error = none := he
  refine ⟨(decodeRun file).byteArrays, ?_⟩
  unfold decodeFile
  rw [he2]

/-- C8, as amended: an encode operation downloads `file.b64`. A decode operation
names its download from `F`, the text before the first comma. When `F` is `data:`,
then `M`, then `;base64`, then anything, where `M` holds no line terminator and
`;base64` starts at no earlier position, and `M` has a `/` after which the
characters up to the next `/` form a string that is not empty, the name is `file.`
and that string; in every other case the name is `file.bin`. A header
`data:<type>/<subtype>;base64,` whose type and subtype hold none of `/`, `,`, `;`
or a line terminator, with a subtype that is not empty, gives `file.<subtype>`. -/
theorem download_name_cases :
    (∀ (s : State) (file : File), s.file = some file →
      (processFile s .encode).downloads =
        s.downloads ++ [{ name := "file.b64".toList, data := .text (encodeFile file) }]) ∧
    (∀ (s : State) (file : File), s.file = some file → isValidBase64 file.text = true →
      ∃ parts, decodeFile file = .ok parts ∧
        (processFile s .decode).downloads = s.downloads ++
          [{ name := downloadName .decode (file.text.takeWhile (fun c => c != ',')),
             data := .blob parts }]) ∧
    (∀ F M rest T S : List Char,
      F = "data:".toList ++ (M ++ (";base64".toList ++ rest)) →
      (∀ c ∈ M, isLineTerminator c = false) →
      (∀ k, k < M.length →
        (";base64".toList).isPrefixOf ((M ++ (";base64".toList ++ rest)).drop k) = false) →
      M = T ++ '/' :: S → '/' ∉ T → S.takeWhile (fun c => c != '/') ≠ [] →
      downloadName .decode F = "file.".toList ++ S.takeWhile (fun c => c != '/')) ∧
    (∀ F : List Char, downloadName .decode F = "file.bin".toList ∨
      ∃ M rest T S : List Char,
        F = "data:".toList ++ (M ++ (";base64".toList ++ rest)) ∧
        (∀ c ∈ M, isLineTerminator c = false) ∧
        (∀ k, k < M.length →
          (";base64".toList).isPrefixOf ((M ++ (";base64".toList ++ rest)).drop k) = false) ∧
        M = T ++ '/' :: S ∧ '/' ∉ T ∧ S.takeWhile (fun c => c != '/') ≠ [] ∧
        downloadName .decode F = "file.".toList ++ S.takeWhile (fun c => c != '/')) ∧
    (∀ type subtype rest : List Char,
      (∀ c ∈ type ++ subtype, c ≠ '/' ∧ c ≠ ',' ∧ c ≠ ';' ∧ isLineTerminator c = false) →
      subtype ≠ [] →
      downloadName .decode
        (("data:".toList ++ (type ++ '/' :: subtype) ++ ";base64,".toList ++ rest).takeWhile
          (fun c => c != ',')) = "file.".toList ++ subtype) := by
  have hshape : ∀ F M rest T S : List Char,
      F = "data:".toList ++ (M ++ (";base64".toList ++ rest)) →
      (∀ c ∈ M, isLineTerminator c = false) →
      (∀ k, k < M.length →
        (";base64".toList).isPrefixOf ((M ++ (";base64".toList ++ rest)).drop k) = false) →
      M = T ++ '/' :: S → '/' ∉ T → S.takeWhile (fun c => c != '/') ≠ [] →
      downloadName .decode F = "file.".toList ++ S.takeWhile (fun c => c != '/') := by
    intro F M rest T S hF hlt hmin hM hT hS
    have hne : F ≠ [] := by
      have : "data:".toList = 'd' :: "ata:".toList := rfl
      rw [hF, this]
      exact List.cons_ne_nil _ _
    have hmatch : headerMatch F = some M := (headerMatch_eq_some F M).mpr ⟨rest, hF, hlt, hmin⟩
    unfold downloadName
    rw [extension_of_match F M hne hmatch, hM, split_second_field T S '/' hT]
    cases hS2 : S.takeWhile (fun c => c != '/') with
    | nil => exact absurd hS2 hS
    | cons c cs => rfl
  refine ⟨?_, ?_, hshape, ?_, ?_⟩
  · intro s file hfile
    unfold processFile
    rw [hfile]
    rfl
  · intro s file hfile hvalid
    obtain ⟨parts, hparts⟩ := decodeFile_of_valid file hvalid
    refine ⟨parts, hparts, ?_⟩
    unfold processFile
    rw [hfile]
    simp only [hvalid, Bool.not_true, Bool.false_eq_true, if_false, hparts]
    rw [originalNameOf_eq]
    rfl
  · intro F
    cases hM : headerMatch F with
    | none =>
      left
      unfold downloadName
      rw [extension_no_match F hM]
      rfl
    | some M =>
      obtain ⟨rest, hF, hlt, hmin⟩ := (headerMatch_eq_some F M).mp hM
      have hne : F ≠ [] := by
        have : "data:".toList = 'd' :: "ata:".toList := rfl
        rw [hF, this]
        exact List.cons_ne_nil _ _
      by_cases hslash : '/' ∈ M
      · obtain ⟨T, S, hTS, hT⟩ := first_occurrence '/' M hslash
        cases hS : S.takeWhile (fun c => c != '/') with
        | nil =>
          left
          unfold downloadName
          rw [extension_of_match F M hne hM, hTS, split_second_field T S '/' hT, hS]
          rfl
        | cons c cs =>
          right
          have hS2 : S.takeWhile (fun c => c != '/') ≠ [] := by rw [hS]; exact List.cons_ne_nil _ _
          refine ⟨M, rest, T, S, hF, hlt, hmin, hTS, hT, hS2, ?_⟩
          exact hshape F M rest T S hF hlt hmin hTS hT hS2
      · left
        unfold downloadName
        rw [extension_of_match F M hne hM, split_of_not_mem '/' M hslash]
        rfl
  · intro type subtype rest h hne
    rw [← originalNameOf_eq]
    exact downloadName_token_header type subtype rest h hne

theorem download_name_cases_witness :
    (processFile { emptyState with file := some helloFile } .encode).downloads =
      [] ++ [{ name := "file.b64".toList, data := .text (encodeFile helloFile) }] ∧
    (∃ parts, decodeFile (textFile "data:a/b,AAAA,;base64".toList) = .ok parts ∧
      (processFile { emptyState with
          file := some (textFile "data:a/b,AAAA,;base64".toList) } .decode).downloads =
        [] ++
          [{ name := downloadName .decode
              ((textFile "data:a/b,AAAA,;base64".toList).text.takeWhile (fun c => c != ',')),
             data := .blob parts }]) ∧
    downloadName .decode "data:image/png;base64".toList =
      "file.".toList ++ "png".toList.takeWhile (fun c => c != '/') ∧
    downloadName .decode
      (("data:".toList ++ ("image".toList ++ '/' :: "png".toList) ++ ";base64,".toList ++
        "AAAA".toList).takeWhile (fun c => c != ',')) = "file.".toList ++ "png".toList :=
  ⟨download_name_cases.1 { emptyState with file := some helloFile } helloFile rfl,
   download_name_cases.2.1
     { emptyState with file := some (textFile "data:a/b,AAAA,;base64".toList) }
     (textFile "data:a/b,AAAA,;base64".toList) rfl (by decide),
   download_name_cases.2.2.1 "data:image/png;base64".toList "image/png".toList []
     "image".toList "png".toList (by decide) (by decide) (by decide) (by decide) (by decide)
     (by decide),
   download_name_cases.2.2.2.2 "image".toList "png".toList "AAAA".toList (by decide) (by decide)⟩

/-- C8, as stated, fails. The text `data:image/png;base64X,AAAA` passes
`isValidBase64` and holds `;base64,` nowhere, so it starts with no header of the
form `data:<type>/<subtype>;base64,`; its download is named `file.png`, not
`file.bin`. The text `data:a/b/c;base64,AAAA` is downloaded as `file.b`, which is
neither `file.b/c` nor `file.c`. -/
theorem download_name_outside_header :
    isValidBase64 "data:image/png;base64X,AAAA".toList = true ∧
    ¬ ";base64,".toList <:+: "data:image/png;base64X,AAAA".toList ∧
    processFile { emptyState with
        file := some (textFile "data:image/png;base64X,AAAA".toList) } .decode =
      { file := some (textFile "data:image/png;base64X,AAAA".toList)
        shown := [.completed]
        downloads := [{ name := "file.png".toList, data := .blob [[0, 0, 0]] }] } ∧
    "file.png".toList ≠ "file.bin".toList ∧
    processFile { emptyState with
        file := some (textFile "data:a/b/c;base64,AAAA".toList) } .decode =
      { file := some (textFile "data:a/b/c;base64,AAAA".toList)
        shown := [.completed]
        downloads := [{ name := "file.b".toList, data := .blob [[0, 0, 0]] }] } ∧
    "file.b".toList ≠ "file.b/c".toList ∧ "file.b".toList ≠ "file.c".toList :=
  ⟨by decide, by decide, by decide, by decide, by decide, by decide, by decide⟩

end VisSend
